import Mathlib

/-!
# Verification of the lispy interpreter core

A shallow embedding, in Lean 4, of the core of the `rectalogic/lispy`
repository: the Mal-style value model (`lispy/mal_types.py`), structural
equality, the readable printer, the standard-library procedures used by the
claims (`lispy/core.py`), the chained environment (`lispy/env.py`), the
trampolined evaluator (`lispy/stepA_mal.py`, with the execution-limit
behaviour of the absent `lispy/rep.py` module modelled from the spec), the
reader (`lispy/reader.py`), and the native bridge (`MalPythonObject.dot`).

Conventions used throughout:
* Python exceptions are modelled by `Except`; `Err.mal` is any
  `MalException` (catchable by `try*`), `Err.host` is a Python-level error
  (`IndexError`, `TypeError`, ... -- not a `MalException`, hence never
  caught by `try*`), and `Err.fuel` / `Err.stack` are model artifacts
  standing for non-termination and host-stack exhaustion respectively.
* Mutable environments are modelled by a store of frames addressed by
  index; Python object mutation becomes functional update of the store.
-/

set_option maxHeartbeats 1000000

namespace LispyModel

/-- Key of a `MalHash_map`: either a `MalString` (`isKeyword = false`) or a
`MalKeyword` (`isKeyword = true`).  Python `dict` key equality between the
two wrappers is their `__eq__`, which requires the same class, so the pair
(kind, text) is exactly the key identity. -/
structure HKey where
  isKeyword : Bool
  text : String
deriving DecidableEq, Repr

/-- The Mal value model of `lispy/mal_types.py`, one constructor per
concrete `MalExpression` subclass used by the interpreter core:
`MalInt`, `MalString`, `MalKeyword`, `MalSymbol`, `MalBoolean`, `MalNil`,
`MalList`, `MalVector`, `MalHash_map`, `MalFunctionCompiled` and
`MalFunctionRaw`.

A `MalFunctionCompiled` wraps a host procedure from `core.ns`; we identify
it by its name in that table (the interpreter itself only ever calls it).
A `MalFunctionRaw` (produced by `fn*`) stores its body `ast`, its raw
parameter expression `params` (the source keeps the whole `raw_params`
object and takes `.native()` at call time) and the index `envId` of its
captured environment frame in the store.  Both carry the `is_macro` flag
(set by `defmacro!`, never unset).

Not modelled: `MalFloat` (the reader has no float rule and no claim's code
path constructs one), `MalAtom`, `MalFunctionPython`/`MalPythonObject`
(the native bridge is modelled separately for claim C2), and `MalBlank`
(constructed only by the absent `rep.py` reader wrapper). -/
inductive Expr where
  | int (n : Int)
  | str (s : String)
  | kw (s : String)
  | sym (s : String)
  | bool (b : Bool)
  | nil
  | list (xs : List Expr)
  | vec (xs : List Expr)
  | hashmap (kvs : List (HKey × Expr))
  | fnComp (isMacro : Bool) (name : String)
  | fnRaw (isMacro : Bool) (ast : Expr) (params : Expr) (envId : Nat)
deriving Repr

/-! ## Decimal printing

Python's `str(int)` renders the value in decimal, with a leading `-` for
negative numbers.  `natChars`/`intStr` implement exactly that rendering. -/

/-- Decimal digit character for `d < 10`. -/
def digitChar (d : Nat) : Char := Char.ofNat (48 + d)

/-- Decimal digits of a natural number (most significant first). -/
def natChars (n : Nat) : List Char :=
  if _h : n < 10 then [digitChar n]
  else natChars (n / 10) ++ [digitChar (n % 10)]
decreasing_by exact Nat.div_lt_self (by omega) (by omega)

/-- `str(int)` of Python: decimal rendering, `-` prefix for negatives. -/
def intStr : Int → String
  | .ofNat m => ⟨natChars m⟩
  | .negSucc m => ⟨'-' :: natChars (m + 1)⟩

/-! ## The readable printer (`readable_str` / `__str__`)

`MalString.readable_str` escapes, in sequence, backslashes, newlines and
double quotes, then adds surrounding quotes.  Because the three
replacements never interfere (the backslashes introduced by the first pass
are not newlines or quotes, and the escapes introduced later are built
from already-doubled backslashes), the sequential passes are equivalent to
the single character-wise map below. -/

/-- Escape one character per `MalString.readable_str`. -/
def escChar (c : Char) : List Char :=
  if c = '\\' then ['\\', '\\']
  else if c = '\n' then ['\\', 'n']
  else if c = '"' then ['\\', '"']
  else [c]

/-- Escape a character list per `MalString.readable_str`. -/
def escChars : List Char → List Char
  | [] => []
  | c :: cs => escChar c ++ escChars cs

mutual

/-- `readable_str` of each `MalExpression` subclass (also its `__str__`).
Functions print `#<macro>` or `#<function>` and never their captured
state. -/
def readableStr : Expr → String
  | .int n => intStr n
  | .str s => "\"" ++ ⟨escChars s.data⟩ ++ "\""
  | .kw s => ":" ++ s
  | .sym s => s
  | .bool b => if b then "true" else "false"
  | .nil => "nil"
  | .list xs => "(" ++ joinSpace xs ++ ")"
  | .vec xs => "[" ++ joinSpace xs ++ "]"
  | .hashmap kvs => "\x7b" ++ joinSpaceKV kvs ++ "\x7d"
  | .fnComp m _ => if m then "#<macro>" else "#<function>"
  | .fnRaw m _ _ _ => if m then "#<macro>" else "#<function>"

/-- `" ".join(map(readable_str, values))`. -/
def joinSpace : List Expr → String
  | [] => ""
  | [x] => readableStr x
  | x :: xs => readableStr x ++ " " ++ joinSpace xs

/-- `" ".join` of alternating readable keys and values of a hash-map. -/
def joinSpaceKV : List (HKey × Expr) → String
  | [] => ""
  | [(k, v)] => hkeyStr k ++ " " ++ readableStr v
  | (k, v) :: kvs => hkeyStr k ++ " " ++ readableStr v ++ " " ++ joinSpaceKV kvs

/-- Readable form of a hash-map key (`MalString` or `MalKeyword`). -/
def hkeyStr (k : HKey) : String :=
  if k.isKeyword then ":" ++ k.text else "\"" ++ ⟨escChars k.text.data⟩ ++ "\""

end

/-! ## Structural equality (`__eq__`)

The default `MalExpression.__eq__` is `isinstance(other, self.__class__)
and self.native() == other.native()`.  `MalList.__eq__` and
`MalVector.__eq__` both accept either a `MalList` or a `MalVector` and
compare the element lists -- the intentional cross-type equality.
`MalHash_map` falls back to the default, i.e. Python `dict` equality:
equal sizes and every key of one present in the other with `__eq__`-equal
value.  Function objects compare by Python object identity (their `native`
is the underlying function object); object identity is not representable
in a value model, so function equality is modelled as `false` (no claim
compares function values). -/

/-- First-match association lookup, the model of `dict[k]` access used for
hash-map values (model hash-maps are built with last-write-wins updates,
so keys are unique and first match is the dict entry). -/
def hmLookup : List (HKey × Expr) → HKey → Option Expr
  | [], _ => none
  | (k, v) :: kvs, k' => if k = k' then some v else hmLookup kvs k'

mutual

/-- `__eq__` of the value model (see the section comment). -/
def malEq : Expr → Expr → Bool
  | .int a, .int b => a == b
  | .str a, .str b => a == b
  | .kw a, .kw b => a == b
  | .sym a, .sym b => a == b
  | .bool a, .bool b => a == b
  | .nil, .nil => true
  | .list xs, .list ys => malEqList xs ys
  | .list xs, .vec ys => malEqList xs ys
  | .vec xs, .list ys => malEqList xs ys
  | .vec xs, .vec ys => malEqList xs ys
  | .hashmap a, .hashmap b => a.length == b.length && hmSub a b
  | _, _ => false

/-- Python list `==`: equal length and pairwise `__eq__`. -/
def malEqList : List Expr → List Expr → Bool
  | [], [] => true
  | x :: xs, y :: ys => malEq x y && malEqList xs ys
  | _, _ => false

/-- `all(k in b and b[k] == v for (k, v) in a)` -- one half of Python dict
equality (the other half is the size comparison). -/
def hmSub : List (HKey × Expr) → List (HKey × Expr) → Bool
  | [], _ => true
  | (k, v) :: kvs, b =>
    (match hmLookup b k with
     | some w => malEq v w
     | none => false) && hmSub kvs b

end

/-- `core.equal`, the `=` builtin: `MalBoolean(a == b)`. -/
def coreEqual (a b : Expr) : Expr := .bool (malEq a b)

/-! ## Errors

`Err.mal payload` models a raised `MalException` carrying `payload` as its
wrapped value (`e.native()`); all the concrete `MalException` subclasses
(`MalInvalidArgumentException`, `MalUnknownSymbolException`,
`MalSyntaxException`, `MalIndexError`, plain `MalException` from `throw`)
wrap a value this way and are all caught by `try*`'s `except MalException`.
`Err.malLimit` is `MalExecutionLimitError` -- also a `MalException`
subclass, kept separate because the spec treats it as non-catchable (see
the evaluator below).  `Err.host` models Python-level exceptions
(`IndexError`, `TypeError`, `KeyError`, ...) that are not `MalException`
and therefore propagate through `try*` to the host. -/
inductive Err where
  | mal (payload : Expr)
  | malLimit (payload : Expr)
  | host (kind : String)
  | fuel
  | stack
deriving Repr

/-- `MalInvalidArgumentException(arg, reason)`: wraps
`arg.readable_str() + ": invalid argument: " + reason`. -/
def invalidArg (arg : Expr) (reason : String) : Err :=
  .mal (.str (readableStr arg ++ ": invalid argument: " ++ reason))

/-- `MalUnknownSymbolException(func)`: wraps `"'" + func + "' not found"`. -/
def unknownSym (f : String) : Err := .mal (.str ("'" ++ f ++ "' not found"))

/-- `MalSyntaxException(message)`. -/
def synErr (msg : String) : Err := .mal (.str msg)

/-- `MalIndexError(index)`: wraps `"Index out of bounds: " + str(index)`. -/
def idxErr (i : Int) : Err := .mal (.str ("Index out of bounds: " ++ intStr i))

/-- `MalExecutionLimitError("execution time limit exceeded")`. -/
def limitErr : Err := .malLimit (.str "execution time limit exceeded")

/-! ## Standard-library procedures (`lispy/core.py`)

Only the procedures reachable from the claims are embedded; each is a
case-by-case translation of its `core.py` source, including the behaviour
on natives of the "wrong" runtime type (where Python raises `TypeError`,
`IndexError`, ...).  Branches that would return a bare Python value that
is not a `MalExpression` (e.g. `first` of a non-empty `MalString` returns
a raw `str` character) are marked with `Err.host "non-mal-return"`; no
claim touches them. -/

/-- `core.first(args)`.  `args[0]` on an empty argument list raises
`IndexError`, which the function's own `except IndexError` handler turns
into `MalNil`.  `native()[0]` of an empty list/vector likewise becomes
`MalNil`; of a non-subscriptable native (`int`, `bool`, function) it
raises `TypeError`, re-raised as `MalInvalidArgumentException`; of a
`dict` it raises an uncaught `KeyError`; of a `str` native it returns the
first character as a bare Python `str` (empty string: `IndexError`,
hence `MalNil`). -/
def coreFirst (args : List Expr) : Except Err Expr :=
  match args with
  | [] => .ok .nil
  | a :: _ =>
    match a with
    | .nil => .ok .nil
    | .list [] => .ok .nil
    | .vec [] => .ok .nil
    | .list (x :: _) => .ok x
    | .vec (x :: _) => .ok x
    | .str s | .sym s | .kw s =>
      if s.isEmpty then .ok .nil else .error (.host "non-mal-return")
    | .hashmap _ => .error (.host "KeyError")
    | .int _ | .bool _ | .fnComp _ _ | .fnRaw _ _ _ _ =>
      .error (invalidArg a "not a list")

/-- `core.rest(args)`.  `args[0]` of an empty argument list raises an
uncaught `IndexError` (only `TypeError` is handled).  For a `str`-backed
native, `MalList(s[1:])` iterates the characters, which are not
`MalExpression`s, so a non-trivial tail raises
`MalInvalidArgumentException(..., "not an expression")` from the `MalList`
constructor; slicing a `dict` or a non-sliceable native raises
`TypeError`, handled as `MalInvalidArgumentException`. -/
def coreRest (args : List Expr) : Except Err Expr :=
  match args with
  | [] => .error (.host "IndexError")
  | a :: _ =>
    match a with
    | .nil => .ok (.list [])
    | .list xs => .ok (.list xs.tail)
    | .vec xs => .ok (.list xs.tail)
    | .str s | .sym s | .kw s =>
      if s.length ≤ 1 then .ok (.list [])
      else .error (.mal (.str "not an expression raised by the MalList constructor"))
    | .hashmap _ | .int _ | .bool _ | .fnComp _ _ | .fnRaw _ _ _ _ =>
      .error (invalidArg a "not a list or vector")

/-- `core.count(x)`. -/
def coreCount (x : Expr) : Except Err Expr :=
  match x with
  | .list xs => .ok (.int xs.length)
  | .vec xs => .ok (.int xs.length)
  | .nil => .ok (.int 0)
  | _ => .error (invalidArg x "not a list")

/-- `core.less(a, b)` (`<`). -/
def coreLess (a b : Expr) : Except Err Expr :=
  match a with
  | .int x =>
    match b with
    | .int y => .ok (.bool (x < y))
    | _ => .error (invalidArg b "not an int")
  | _ => .error (invalidArg a "not an int")

/-- `core.less_equal(a, b)` (`<=`). -/
def coreLessEqual (a b : Expr) : Except Err Expr :=
  match a with
  | .int x =>
    match b with
    | .int y => .ok (.bool (x ≤ y))
    | _ => .error (invalidArg b "not an int")
  | _ => .error (invalidArg a "not an int")

/-- `core.not_(expr)`. -/
def coreNot (e : Expr) : Expr :=
  match e with
  | .nil => .bool true
  | .bool false => .bool true
  | _ => .bool false

/-- `core.cons(first, rest)`. -/
def coreCons (x rest : Expr) : Except Err Expr :=
  match rest with
  | .list xs => .ok (.list (x :: xs))
  | .vec xs => .ok (.list (x :: xs))
  | _ => .error (invalidArg rest "not a list or vector")

/-- `core.concat(args)`. -/
def coreConcat (args : List Expr) : Except Err Expr :=
  match args with
  | [] => .ok (.list [])
  | a :: rest =>
    match a with
    | .list xs | .vec xs =>
      match coreConcat rest with
      | .ok (.list ys) => .ok (.list (xs ++ ys))
      | .ok other => .ok other
      | .error e => .error e
    | _ => .error (invalidArg a "not a list or vector")

/-- `core.nth(list_, index)`.  The guard only rejects `index > len - 1`,
so Python's negative indexing applies below that: `-len ≤ i < 0` indexes
from the end, and `i < -len` raises an uncaught `IndexError`. -/
def coreNth (l i : Expr) : Except Err Expr :=
  match l with
  | .list xs | .vec xs =>
    match i with
    | .int n =>
      if n > (xs.length : Int) - 1 then .error (idxErr n)
      else if 0 ≤ n then .ok (xs.getD n.toNat .nil)
      else if 0 ≤ (xs.length : Int) + n then .ok (xs.getD ((xs.length : Int) + n).toNat .nil)
      else .error (.host "IndexError")
    | _ => .error (invalidArg i "not an int")
  | _ => .error (invalidArg l "not a list or vector")

/-- Python numeric native of a Mal value: `MalInt.native()` is the `int`;
`MalBoolean.native()` is a `bool`, which Python arithmetic treats as
`0`/`1`. -/
def numNative : Expr → Option Int
  | .int n => some n
  | .bool b => some (if b then 1 else 0)
  | _ => none

/-- `core.require_args` then `operator.add` then `MalInt(...)`:
the arithmetic builtins.  Numeric natives (`int`, `bool`) produce a
`MalInt`.  Adding two `str` or two `list` natives succeeds in Python but
the result then fails `MalInt.__init__`'s `isinstance(value, int)` check,
raising `MalSyntaxException("... not an int")`; any other combination
raises a Python `TypeError`. -/
def coreAdd (args : List Expr) : Except Err Expr :=
  match args with
  | [a, b] =>
    match numNative a, numNative b with
    | some x, some y => .ok (.int (x + y))
    | _, _ =>
      match a, b with
      | .str x, .str y => .error (synErr (x ++ y ++ " not an int"))
      | .kw x, .kw y => .error (synErr (x ++ y ++ " not an int"))
      | .sym x, .sym y => .error (synErr (x ++ y ++ " not an int"))
      | _, _ => .error (.host "TypeError")
  | _ => .error (synErr "not enough arguments")

/-- `operator.sub` builtin (see `coreAdd`); `-` is undefined on sequence
and string natives, so every non-numeric case is a `TypeError`. -/
def coreSub (args : List Expr) : Except Err Expr :=
  match args with
  | [a, b] =>
    match numNative a, numNative b with
    | some x, some y => .ok (.int (x - y))
    | _, _ => .error (.host "TypeError")
  | _ => .error (synErr "not enough arguments")

/-- `operator.mul` builtin on numeric natives; `int * str` and
`int * list` repetition would escape to `MalSyntaxException`, modelled as
a host error here (no claim reaches it). -/
def coreMul (args : List Expr) : Except Err Expr :=
  match args with
  | [a, b] =>
    match numNative a, numNative b with
    | some x, some y => .ok (.int (x * y))
    | _, _ => .error (.host "TypeError")
  | _ => .error (synErr "not enough arguments")

/-- `operator.floordiv` builtin: Python `//` floors toward negative
infinity (`Int.fdiv`); division by zero raises `ZeroDivisionError`. -/
def coreDiv (args : List Expr) : Except Err Expr :=
  match args with
  | [a, b] =>
    match numNative a, numNative b with
    | some x, some y =>
      if y = 0 then .error (.host "ZeroDivisionError") else .ok (.int (Int.fdiv x y))
    | _, _ => .error (.host "TypeError")
  | _ => .error (synErr "not enough arguments")

/-- `core.require_args(args, n)`. -/
def requireArgs (args : List Expr) (n : Nat) : Except Err (List Expr) :=
  if args.length = n then .ok args else .error (synErr "not enough arguments")

/-- Dispatch of the `MalFunctionCompiled` entries of `core.ns` embedded in
this model (the subset reachable from the claims; `core.ns` lookup is by
name, so the untranslated entries do not affect any evaluation that never
looks them up). -/
def callCompiled (name : String) (args : List Expr) : Except Err Expr :=
  match name with
  | "+" => coreAdd args
  | "-" => coreSub args
  | "*" => coreMul args
  | "/" => coreDiv args
  | "=" => do let a ← requireArgs args 2; pure (coreEqual (a.getD 0 .nil) (a.getD 1 .nil))
  | "<" => do let a ← requireArgs args 2; coreLess (a.getD 0 .nil) (a.getD 1 .nil)
  | "<=" => do let a ← requireArgs args 2; coreLessEqual (a.getD 0 .nil) (a.getD 1 .nil)
  | ">" => do let a ← requireArgs args 2; coreLess (a.getD 1 .nil) (a.getD 0 .nil)
  | ">=" => do let a ← requireArgs args 2; coreLessEqual (a.getD 1 .nil) (a.getD 0 .nil)
  | "list" => .ok (.list args)
  | "count" => do let a ← requireArgs args 1; coreCount (a.getD 0 .nil)
  | "first" => coreFirst args
  | "rest" => coreRest args
  | "cons" => do let a ← requireArgs args 2; coreCons (a.getD 0 .nil) (a.getD 1 .nil)
  | "concat" => coreConcat args
  | "nth" => do let a ← requireArgs args 2; coreNth (a.getD 0 .nil) (a.getD 1 .nil)
  | "not" => do let a ← requireArgs args 1; pure (coreNot (a.getD 0 .nil))
  | "throw" => do
      let a ← requireArgs args 1
      .error (.mal (a.getD 0 .nil))
  | _ => .error (.host "unmodelled-builtin")

/-! ## Environments (`lispy/env.py`)

An `Env` is a mutable `{str: MalExpression}` mapping plus an `outer`
reference.  Mutability and sharing are modelled with a store: a list of
frames addressed by index; an environment value in the model is a frame
index.  Frames are only ever appended, and a frame's `outer` index is
always smaller than its own index (the outer env exists before the child
is constructed), which makes chain walking terminate. -/

/-- One `Env`: its `_data` dict (as an insertion-ordered association list
with unique keys, matching Python dict semantics) and its `_outer`. -/
structure Frame where
  data : List (String × Expr)
  outer : Option Nat
deriving Repr

/-- `dict[k] = v`: replace in place if present (keeping insertion order),
else append. -/
def dataSet : List (String × Expr) → String → Expr → List (String × Expr)
  | [], k, v => [(k, v)]
  | (k', v') :: rest, k, v =>
    if k' = k then (k, v) :: rest else (k', v') :: dataSet rest k v

/-- `dict` lookup (keys are unique, so first match). -/
def dataLookup : List (String × Expr) → String → Option Expr
  | [], _ => none
  | (k', v) :: rest, k => if k' = k then some v else dataLookup rest k

/-- The store of environment frames, together with the execution limit
shared by the chain (`env.py` stores the root's `ExecutionLimit` by
reference in every frame; all frames of one store share one root here).
Modelled from the spec: the wall clock of `ExecutionLimit` is abstracted
to one unit of elapsed time per evaluator loop iteration, so `ticks` is
the elapsed time and `limit` the `time_limit` deadline. -/
structure Store where
  frames : List Frame
  limit : Option Nat
  ticks : Nat
deriving Repr

/-- `ExecutionLimit.check` via `Env.check_execution_limit` (modelled from
the spec; the checking call sits in the absent `rep.py` evaluator): no-op
without a limit; with one, raise `MalExecutionLimitError` once the
elapsed time reaches the deadline, otherwise let one time unit pass. -/
def checkLimit (st : Store) : Except Err Store :=
  match st.limit with
  | none => .ok st
  | some l => if l ≤ st.ticks then .error limitErr else .ok { st with ticks := st.ticks + 1 }

/-- Worker for `envGet`, fuelled by the chain-length bound. -/
def envGetD : Nat → Store → Nat → String → Option Expr
  | 0, _, _, _ => none
  | fuel + 1, st, eid, key =>
    match st.frames.get? eid with
    | none => none
    | some fr =>
      match dataLookup fr.data key with
      | some v => some v
      | none =>
        match fr.outer with
        | some o => if o < eid then envGetD fuel st o key else none
        | none => none

/-- `Env.get` / `Env.find`: walk the chain innermost-outward, returning
the first binding; `none` models `MalUnknownSymbolException`.  The
`o < eid` guard is the append-only store invariant (every reachable
frame's outer index is smaller than its own index, since the outer env
exists before the child); it bounds the walk by `eid + 1` steps, which is
the fuel given to the worker `envGetD`. -/
def envGet (st : Store) (eid : Nat) (key : String) : Option Expr :=
  envGetD (eid + 1) st eid key

/-- `Env.set` on frame `eid` (no-op on a dangling index, which never
occurs for reachable stores). -/
def envSet (st : Store) (eid : Nat) (key : String) (v : Expr) : Store :=
  match st.frames.get? eid with
  | none => st
  | some fr => { st with frames := st.frames.set eid { fr with data := dataSet fr.data key v } }

/-- The binding loop of `Env.__init__` (`env.py` lines 34-42), building
the new frame's `_data`: for each `binds[x]`, a non-`MalSymbol` raises
`MalInvalidArgumentException`; the rest-marker `&` binds
`str(binds[x+1])` to a `MalList` of all remaining `exprs` and stops
(`binds[x+1]` past the end raises an uncaught `IndexError`); otherwise
`str(binds[x])` is bound to `exprs[x]` (`exprs[x]` past the end raises an
uncaught `IndexError`).  There is no length comparison between `binds`
and `exprs`. -/
def envBindLoop (binds exprs : List Expr) (acc : List (String × Expr)) :
    Except Err (List (String × Expr)) :=
  match binds with
  | [] => .ok acc
  | b :: bs =>
    match b with
    | .sym s =>
      if s = "&" then
        match bs with
        | b2 :: _ => .ok (dataSet acc (readableStr b2) (.list exprs))
        | [] => .error (.host "IndexError")
      else
        match exprs with
        | e :: es => envBindLoop bs es (dataSet acc s e)
        | [] => .error (.host "IndexError")
    | _ => .error (invalidArg b "not a symbol")

/-- `MalFunctionRaw.params().native()` as consumed by `Env.__init__`'s
`for x in range(0, len(binds))` loop: a `list`/`vector` native is the
element list; an empty `str` native yields an empty loop; every other
native either fails `len()` with a `TypeError` (`int`, `bool`, `None`,
functions), hits `KeyError` on integer subscription (`dict`), or
subscripts to a bare `str` character whose failing
`MalInvalidArgumentException` construction itself raises
`AttributeError` (non-empty `str`). -/
def paramsToBinds : Expr → Except Err (List Expr)
  | .list xs => .ok xs
  | .vec xs => .ok xs
  | .str s | .sym s | .kw s => if s.isEmpty then .ok [] else .error (.host "AttributeError")
  | .hashmap _ => .error (.host "KeyError")
  | _ => .error (.host "TypeError")

/-- `Env.__init__(outer, binds, exprs)`: run the binding loop, append the
new frame; returns the new frame's index. -/
def envNew (st : Store) (outer : Option Nat) (binds exprs : List Expr) :
    Except Err (Store × Nat) :=
  match envBindLoop binds exprs [] with
  | .error e => .error e
  | .ok data =>
    .ok ({ st with frames := st.frames ++ [⟨data, outer⟩] }, st.frames.length)

/-! ## The native bridge (`MalPythonObject.dot`, claim C2)

Host objects are modelled abstractly: a type name plus an attribute
dictionary (or a bare callable, or Python `None`, which is what
`getattr(obj, attr, None)` returns for a missing attribute).  A
restriction policy is the `Restrictions` mapping from host type to the
allow-list of attribute names. -/

/-- An abstract host (Python) value. -/
inductive PyVal where
  | obj (tyName : String) (attrs : List (String × PyVal))
  | callable (tyName : String)
  | pyNone
deriving Repr

/-- `type(x).__name__`-level type identity used as the restriction key. -/
def PyVal.typeName : PyVal → String
  | .obj t _ => t
  | .callable t => t
  | .pyNone => "NoneType"

/-- `Restrictions = Dict[type, Iterable[str]]`. -/
abbrev Restrictions := List (String × List String)

/-- Association lookup in a restriction policy (`dict.get`). -/
def restrGet : Restrictions → String → Option (List String)
  | [], _ => none
  | (t, al) :: rest, ty => if t = ty then some al else restrGet rest ty

/-- Python truthiness of `self._restrictions`: `None` and the empty dict
are both falsy. -/
def restrTruthy : Option Restrictions → Bool
  | none => false
  | some [] => false
  | some (_ :: _) => true

/-- `getattr(obj, attr, None)`. -/
def getAttrD (v : PyVal) (attr : String) : PyVal :=
  match v with
  | .obj _ attrs =>
    match attrs.lookup attr with
    | some w => w
    | none => .pyNone
  | _ => .pyNone

/-- `setattr(obj, attr, value)` (ordinary Python objects accept any
attribute write). -/
def setAttr (v : PyVal) (attr : String) (w : PyVal) : PyVal :=
  match v with
  | .obj t attrs => .obj t (if attrs.lookup attr |>.isSome
      then attrs.map (fun p => if p.1 = attr then (attr, w) else p) else attrs ++ [(attr, w)])
  | other => other

/-- `mal_types.expression_from_native(obj, restrictions)`: a callable host
value becomes a `MalFunctionPython`, anything else a `MalPythonObject`,
both keeping the restriction policy. -/
inductive Marshalled where
  | pyFn (f : PyVal) (restr : Option Restrictions)
  | pyObj (v : PyVal) (restr : Option Restrictions)
deriving Repr

def expressionFromNative (v : PyVal) (r : Option Restrictions) : Marshalled :=
  match v with
  | .callable t => .pyFn (.callable t) r
  | other => .pyObj other r

/-- Result of `MalPythonObject.dot`: an attribute read returns the
marshalled attribute value; an attribute write performs `setattr` and
returns `MalNil` (the updated host object is carried so the write is
observable in the model). -/
inductive DotResult where
  | read (m : Marshalled)
  | wrote (newObj : PyVal)
deriving Repr

/-- `MalPythonObject.dot(attr, value)` (`mal_types.py` lines 77-95): if
`self._restrictions` is truthy, look up the allow-list for the host
value's type; a missing or empty allow-list, or an attribute outside it,
raises `MalInvalidArgumentException` before any attribute access.
Otherwise a present `value` is written with `setattr` (returning `nil`),
and an absent one is read with `getattr(..., None)` and marshalled under
the same restriction policy. -/
def dot (v : PyVal) (restrictions : Option Restrictions) (attr : String)
    (value : Option PyVal) : Except Err DotResult :=
  if restrTruthy restrictions then
    match restrictions.bind (restrGet · v.typeName) with
    | none => .error (.mal (.str ("access restricted to attribute \"" ++ attr ++ "\"")))
    | some attrs =>
      if attrs.isEmpty ∨ attr ∉ attrs then
        .error (.mal (.str ("access restricted to attribute \"" ++ attr ++ "\"")))
      else
        match value with
        | some w => .ok (.wrote (setAttr v attr w))
        | none => .ok (.read (expressionFromNative (getAttrD v attr) restrictions))
  else
    match value with
    | some w => .ok (.wrote (setAttr v attr w))
    | none => .ok (.read (expressionFromNative (getAttrD v attr) restrictions))

/-! ## Claim C10: `first` and `rest` on nil and empty sequences -/

/-- C10: at the standard-library boundary, `first` applied to nil or to an
empty List or Vector returns nil, `rest` applied to nil or to an empty
List returns the empty List, and neither operation fails (raises) on nil
or empty sequence inputs (including `rest` of an empty Vector). -/
theorem C10_first_rest_nil_empty :
    coreFirst [.nil] = .ok .nil ∧
    coreFirst [.list []] = .ok .nil ∧
    coreFirst [.vec []] = .ok .nil ∧
    coreRest [.nil] = .ok (.list []) ∧
    coreRest [.list []] = .ok (.list []) ∧
    coreRest [.vec []] = .ok (.list []) := by
  refine ⟨rfl, rfl, rfl, rfl, rfl, rfl⟩

/-! ## Claim C2: the restriction policy of the native bridge -/

/-- C2 as stated is falsified by the empty policy: a handle constructed
*with* a restriction policy that is the empty mapping (`restrictions={}`)
permits the access (Python truthiness: `if self._restrictions:` is false
for the empty dict), instead of raising InvalidArgument for an attribute
that is in no allow-list. -/
theorem C2_counterexample_empty_policy :
    dot (.obj "Person" [("secret", .pyNone)]) (some []) "secret" none =
      .ok (.read (.pyObj .pyNone (some []))) := by
  rfl

/-- C2 (amended): a handle constructed without a restriction policy -- or
with the *empty* policy, which Python truthiness treats the same way --
permits any attribute access; a handle constructed with a non-empty
policy raises InvalidArgument (a `MalException`, `Err.mal`) for any
attribute not contained in the allow-list registered for the host value's
type (in particular whenever no allow-list is registered for that type),
performing no attribute read or write (the result does not depend on the
object's attributes, and no `wrote` result is produced); an attribute in
the allow-list is accessed normally (read marshals
`getattr(obj, attr, None)`; write performs `setattr` and returns nil). -/
theorem C2_restriction_enforcement (ty : String) (attrs : List (String × PyVal))
    (attr : String) (w : Option PyVal) :
    (dot (.obj ty attrs) none attr w =
      match w with
      | some v => .ok (.wrote (setAttr (.obj ty attrs) attr v))
      | none => .ok (.read (expressionFromNative (getAttrD (.obj ty attrs) attr) none))) ∧
    (dot (.obj ty attrs) (some []) attr w =
      match w with
      | some v => .ok (.wrote (setAttr (.obj ty attrs) attr v))
      | none => .ok (.read (expressionFromNative (getAttrD (.obj ty attrs) attr) (some [])))) ∧
    (∀ r : Restrictions, r ≠ [] → restrGet r ty = none →
      dot (.obj ty attrs) (some r) attr w =
        .error (.mal (.str ("access restricted to attribute \"" ++ attr ++ "\"")))) ∧
    (∀ (r : Restrictions) (al : List String), r ≠ [] → restrGet r ty = some al →
      attr ∉ al →
      dot (.obj ty attrs) (some r) attr w =
        .error (.mal (.str ("access restricted to attribute \"" ++ attr ++ "\"")))) ∧
    (∀ (r : Restrictions) (al : List String), r ≠ [] → restrGet r ty = some al →
      attr ∈ al →
      dot (.obj ty attrs) (some r) attr w =
        match w with
        | some v => .ok (.wrote (setAttr (.obj ty attrs) attr v))
        | none => .ok (.read (expressionFromNative (getAttrD (.obj ty attrs) attr) (some r)))) := by
  have truthy : ∀ r : Restrictions, r ≠ [] → restrTruthy (some r) = true := by
    intro r hr
    cases r with
    | nil => exact absurd rfl hr
    | cons a as => rfl
  refine ⟨?_, ?_, ?_, ?_, ?_⟩
  · cases w <;> rfl
  · cases w <;> rfl
  · intro r hr hget
    simp only [dot, truthy r hr, if_true, PyVal.typeName, Option.bind, hget]
  · intro r al hr hget hmem
    simp only [dot, truthy r hr, if_true, PyVal.typeName, Option.bind, hget]
    rw [if_pos (Or.inr hmem)]
  · intro r al hr hget hmem
    have hno : ¬(al.isEmpty = true ∨ attr ∉ al) := by
      rintro (he | hnin)
      · cases al with
        | nil => simp at hmem
        | cons a as => simp [List.isEmpty] at he
      · exact hnin hmem
    simp only [dot, truthy r hr, if_true, PyVal.typeName, Option.bind, hget]
    rw [if_neg hno]

/-- Witness for `C2_restriction_enforcement` at a concrete handle,
policy and attribute, mirroring the spec's example: with restriction
`{Person: {"count"}}`, `(. obj 'count)` succeeds and `(. obj 'secret)`
fails with InvalidArgument. -/
theorem C2_restriction_enforcement_witness :
    dot (.obj "Person" [("count", .pyNone)]) (some [("Person", ["count"])]) "secret" none =
      .error (.mal (.str ("access restricted to attribute \"secret\""))) ∧
    dot (.obj "Person" [("count", .pyNone)]) (some [("Person", ["count"])]) "count" none =
      .ok (.read (expressionFromNative (getAttrD (.obj "Person" [("count", .pyNone)]) "count")
        (some [("Person", ["count"])]))) := by
  constructor
  · exact (C2_restriction_enforcement "Person" [("count", .pyNone)] "secret" none).2.2.2.1
      [("Person", ["count"])] ["count"] (by simp) (by rfl) (by simp)
  · exact (C2_restriction_enforcement "Person" [("count", .pyNone)] "count" none).2.2.2.2
      [("Person", ["count"])] ["count"] (by simp) (by rfl) (by simp)

/-! ## Claim C5: `Env.__init__` parameter binding -/

theorem readableStr_sym (s : String) : readableStr (.sym s) = s := by
  simp [readableStr]

theorem dataLookup_dataSet_self (d : List (String × Expr)) (k : String) (v : Expr) :
    dataLookup (dataSet d k v) k = some v := by
  induction d with
  | nil => simp [dataSet, dataLookup]
  | cons p rest ih =>
    by_cases h : p.1 = k
    · simp [dataSet, dataLookup, h]
    · simp [dataSet, dataLookup, h, ih]

theorem dataLookup_dataSet_ne (d : List (String × Expr)) (k k' : String) (v : Expr)
    (h : k' ≠ k) : dataLookup (dataSet d k v) k' = dataLookup d k' := by
  induction d with
  | nil => simp [dataSet, dataLookup, Ne.symm h]
  | cons p rest ih =>
    by_cases hp : p.1 = k
    · subst hp
      simp only [dataSet, if_pos rfl]
      simp [dataLookup, Ne.symm h]
    · simp only [dataSet, if_neg hp]
      by_cases hp' : p.1 = k'
      · simp [dataLookup, hp']
      · simp [dataLookup, hp', ih]

/-- The binding loop on plain (non-`&`) symbol parameters with at least as
many arguments: it succeeds, leaves unrelated keys alone, and (for
distinct parameter names) binds the `i`-th name to the `i`-th argument. -/
theorem envBindLoop_plain (names : List String) (exprs : List Expr)
    (acc : List (String × Expr)) (hamp : "&" ∉ names)
    (hle : names.length ≤ exprs.length) :
    ∃ data, envBindLoop (names.map .sym) exprs acc = .ok data ∧
      (∀ k, k ∉ names → dataLookup data k = dataLookup acc k) ∧
      (names.Nodup → ∀ i (hi : i < names.length) (hie : i < exprs.length),
        dataLookup data (names.get ⟨i, hi⟩) = some (exprs.get ⟨i, hie⟩)) := by
  induction names generalizing exprs acc with
  | nil => exact ⟨acc, rfl, fun _ _ => rfl, fun _ i hi => absurd hi (by simp)⟩
  | cons n ns ih =>
    match exprs with
    | [] => simp at hle
    | e :: es =>
      have hamp' : "&" ∉ ns := fun h => hamp (List.mem_cons_of_mem _ h)
      have hn : n ≠ "&" := fun h => hamp (h ▸ List.mem_cons_self _ _)
      obtain ⟨data, hrun, hother, hidx⟩ :=
        ih es (dataSet acc n e) hamp' (by simpa using Nat.le_of_succ_le_succ (by simpa using hle))
      refine ⟨data, ?_, ?_, ?_⟩
      · simpa [envBindLoop, hn] using hrun
      · intro k hk
        have hk1 : k ≠ n := fun h => hk (h ▸ List.mem_cons_self _ _)
        have hk2 : k ∉ ns := fun h => hk (List.mem_cons_of_mem _ h)
        rw [hother k hk2, dataLookup_dataSet_ne _ _ _ _ hk1]
      · intro hnd i hi hie
        match i with
        | 0 =>
          have hnin : n ∉ ns := (List.nodup_cons.mp hnd).1
          simpa [hother n hnin] using dataLookup_dataSet_self acc n e
        | i + 1 =>
          exact hidx (List.nodup_cons.mp hnd).2 i (by simpa using hi) (by simpa using hie)

/-- The binding loop on plain symbol parameters with too few arguments:
an uncaught Python `IndexError` from `exprs[x]`, not a Mal Arity error. -/
theorem envBindLoop_short (names : List String) (exprs : List Expr)
    (acc : List (String × Expr)) (hamp : "&" ∉ names)
    (hlt : exprs.length < names.length) :
    envBindLoop (names.map .sym) exprs acc = .error (.host "IndexError") := by
  induction names generalizing exprs acc with
  | nil => simp at hlt
  | cons n ns ih =>
    have hn : n ≠ "&" := fun h => hamp (h ▸ List.mem_cons_self _ _)
    match exprs with
    | [] => simp [envBindLoop, hn]
    | e :: es =>
      have hamp' : "&" ∉ ns := fun h => hamp (List.mem_cons_of_mem _ h)
      simpa [envBindLoop, hn] using ih es (dataSet acc n e) hamp' (by simpa using hlt)

/-- The binding loop with a rest marker: the expression after `&` is
bound (under its `str()`) to a `MalList` of the remaining arguments, and
everything after it is ignored. -/
theorem envBindLoop_amp (names : List String) (exprs : List Expr)
    (acc : List (String × Expr)) (rb : Expr) (tail : List Expr)
    (hamp : "&" ∉ names) (hle : names.length ≤ exprs.length) :
    ∃ data,
      envBindLoop (names.map .sym ++ .sym "&" :: rb :: tail) exprs acc = .ok data ∧
      dataLookup data (readableStr rb) = some (.list (exprs.drop names.length)) ∧
      (∀ k, k ∉ names → k ≠ readableStr rb → dataLookup data k = dataLookup acc k) := by
  induction names generalizing exprs acc with
  | nil =>
    refine ⟨dataSet acc (readableStr rb) (.list exprs), ?_, ?_, ?_⟩
    · simp [envBindLoop]
    · simpa using dataLookup_dataSet_self acc (readableStr rb) (.list exprs)
    · intro k _ hk2
      exact dataLookup_dataSet_ne _ _ _ _ hk2
  | cons n ns ih =>
    match exprs with
    | [] => simp at hle
    | e :: es =>
      have hamp' : "&" ∉ ns := fun h => hamp (List.mem_cons_of_mem _ h)
      have hn : n ≠ "&" := fun h => hamp (h ▸ List.mem_cons_self _ _)
      obtain ⟨data, hrun, hrb, hother⟩ :=
        ih es (dataSet acc n e) hamp' (by simpa using Nat.le_of_succ_le_succ (by simpa using hle))
      refine ⟨data, ?_, ?_, ?_⟩
      · simpa [envBindLoop, hn] using hrun
      · simpa using hrb
      · intro k hk hk2
        have hk1 : k ≠ n := fun h => hk (h ▸ List.mem_cons_self _ _)
        have hk3 : k ∉ ns := fun h => hk (List.mem_cons_of_mem _ h)
        rw [hother k hk3 hk2, dataLookup_dataSet_ne _ _ _ _ hk1]

/-- C5 counterexample: constructing an environment with parameter list
`(a)` and argument list `(1 2)` -- no rest marker, mismatched lengths --
does **not** fail with an Arity error; the surplus argument is silently
ignored and `a` is bound to `1`. -/
theorem C5_counterexample_no_arity_check :
    envBindLoop [.sym "a"] [.int 1, .int 2] [] = .ok [("a", .int 1)] := by
  rfl

/-- C5 (amended): `Env.__init__` performs no arity check.  With parameter
symbols containing no rest marker `&`: when there are at least as many
arguments as parameters the construction succeeds, each (distinct)
parameter symbol is bound to the argument at the same position, and
surplus arguments are silently ignored; when there are fewer arguments
than parameters the construction fails with an uncaught Python
`IndexError` (a host error, not a Mal Arity error).  When a rest marker
is present, the symbol following it is bound to a List of all remaining
arguments. -/
theorem C5_env_binding (names : List String) (exprs : List Expr)
    (hamp : "&" ∉ names) (hnd : names.Nodup) :
    (names.length ≤ exprs.length →
      ∃ data, envBindLoop (names.map .sym) exprs [] = .ok data ∧
        ∀ i (hi : i < names.length) (hie : i < exprs.length),
          dataLookup data (names.get ⟨i, hi⟩) = some (exprs.get ⟨i, hie⟩)) ∧
    (exprs.length < names.length →
      envBindLoop (names.map .sym) exprs [] = .error (.host "IndexError")) ∧
    (∀ (rname : String) (tail : List Expr), names.length ≤ exprs.length →
      ∃ data,
        envBindLoop (names.map .sym ++ .sym "&" :: .sym rname :: tail) exprs [] = .ok data ∧
        dataLookup data rname = some (.list (exprs.drop names.length))) := by
  refine ⟨?_, ?_, ?_⟩
  · intro hle
    obtain ⟨data, hrun, _, hidx⟩ := envBindLoop_plain names exprs [] hamp hle
    exact ⟨data, hrun, hidx hnd⟩
  · exact envBindLoop_short names exprs [] hamp
  · intro rname tail hle
    obtain ⟨data, hrun, hrb, _⟩ := envBindLoop_amp names exprs [] (.sym rname) tail hamp hle
    exact ⟨data, hrun, by simpa [readableStr_sym] using hrb⟩

/-! ## Claim C7: cross-type List/Vector equality

The symmetry statement quantifies over values as they occur at runtime:
every reachable `MalHash_map` has unique keys (Python dicts cannot hold
duplicates), captured by the well-formedness predicate `wfv`.  (Function
values are symmetric trivially in the model, where identity-based
function equality is `false`.) -/

mutual

/-- Well-formedness: every hash-map (recursively) has unique keys, as is
true of every value the interpreter can construct. -/
def wfv : Expr → Bool
  | .list xs => wfList xs
  | .vec xs => wfList xs
  | .hashmap kvs => decide (kvs.map Prod.fst).Nodup && wfKVs kvs
  | _ => true

def wfList : List Expr → Bool
  | [] => true
  | x :: xs => wfv x && wfList xs

def wfKVs : List (HKey × Expr) → Bool
  | [] => true
  | (_, v) :: kvs => wfv v && wfKVs kvs

end

theorem wfList_forall {xs : List Expr} (h : wfList xs = true) :
    ∀ x ∈ xs, wfv x = true := by
  induction xs with
  | nil => intro x hx; simp at hx
  | cons y ys ih =>
    rw [wfList, Bool.and_eq_true] at h
    intro x hx
    rcases List.mem_cons.mp hx with rfl | hx
    · exact h.1
    · exact ih h.2 x hx

theorem wfKVs_forall {kvs : List (HKey × Expr)} (h : wfKVs kvs = true) :
    ∀ p ∈ kvs, wfv p.2 = true := by
  induction kvs with
  | nil => intro p hp; simp at hp
  | cons q qs ih =>
    match q with
    | (k, v) =>
      rw [wfKVs, Bool.and_eq_true] at h
      intro p hp
      rcases List.mem_cons.mp hp with rfl | hp
      · exact h.1
      · exact ih h.2 p hp

/-- Decidable-equality `==` is symmetric. -/
theorem beq_comm' {α : Type} [DecidableEq α] (x y : α) : (x == y) = (y == x) := by
  by_cases h : x = y
  · subst h; rfl
  · rw [Bool.eq_iff_iff]
    simp only [beq_iff_eq]
    exact ⟨fun hh => absurd hh h, fun hh => absurd hh.symm h⟩

theorem hmSub_iff (a b : List (HKey × Expr)) :
    hmSub a b = true ↔
      ∀ p ∈ a, ∃ w, hmLookup b p.1 = some w ∧ malEq p.2 w = true := by
  induction a with
  | nil => simp [hmSub]
  | cons q qs ih =>
    match q with
    | (k, v) =>
      rw [hmSub, Bool.and_eq_true, ih]
      constructor
      · rintro ⟨h1, h2⟩ p hp
        rcases List.mem_cons.mp hp with rfl | hp
        · revert h1
          match hl : hmLookup b k with
          | some w => exact fun h1 => ⟨w, rfl, h1⟩
          | none => simp
        · exact h2 p hp
      · intro h
        obtain ⟨w, hw, hew⟩ := h (k, v) (List.mem_cons_self _ _)
        exact ⟨by rw [hw]; exact hew, fun p hp => h p (List.mem_cons_of_mem _ hp)⟩

theorem hmLookup_isSome_iff (b : List (HKey × Expr)) (k : HKey) :
    (∃ w, hmLookup b k = some w) ↔ k ∈ b.map Prod.fst := by
  induction b with
  | nil => simp [hmLookup]
  | cons q qs ih =>
    by_cases h : q.1 = k
    · subst h
      constructor
      · intro _
        simp
      · intro _
        exact ⟨q.2, by simp [hmLookup]⟩
    · simp only [hmLookup, if_neg h, List.map_cons, List.mem_cons, ih]
      constructor
      · exact fun hh => Or.inr hh
      · intro hh
        rcases hh with hh | hh
        · exact absurd hh.symm h
        · exact hh

theorem hmLookup_mem {b : List (HKey × Expr)} {k : HKey} {v : Expr}
    (h : hmLookup b k = some v) : (k, v) ∈ b := by
  induction b with
  | nil => simp [hmLookup] at h
  | cons q qs ih =>
    by_cases hq : q.1 = k
    · rw [hmLookup, if_pos hq] at h
      injection h with h2
      have hqe : q = (k, v) := by
        cases q
        simp_all
      rw [← hqe]
      exact List.mem_cons_self _ _
    · rw [hmLookup, if_neg hq] at h
      exact List.mem_cons_of_mem _ (ih h)

theorem hmLookup_of_mem_nodup {b : List (HKey × Expr)} {k : HKey} {v : Expr}
    (hmem : (k, v) ∈ b) (hnd : (b.map Prod.fst).Nodup) : hmLookup b k = some v := by
  induction b with
  | nil => simp at hmem
  | cons q qs ih =>
    rw [List.map_cons, List.nodup_cons] at hnd
    rcases List.mem_cons.mp hmem with rfl | hmem
    · simp [hmLookup]
    · have hk : q.1 ≠ k := by
        intro h
        exact hnd.1 (h ▸ List.mem_map_of_mem Prod.fst hmem)
      rw [hmLookup, if_neg hk]
      exact ih hmem hnd.2

/-- One direction of dict-equality symmetry, on unique-key maps, assuming
elementwise symmetry of the value equality. -/
theorem hmSub_symm_of {a b : List (HKey × Expr)}
    (nda : (a.map Prod.fst).Nodup) (ndb : (b.map Prod.fst).Nodup)
    (hlen : a.length = b.length)
    (ihsym : ∀ p ∈ a, ∀ q ∈ b, malEq p.2 q.2 = malEq q.2 p.2)
    (hsub : hmSub a b = true) : hmSub b a = true := by
  rw [hmSub_iff] at hsub ⊢
  have hksub : a.map Prod.fst ⊆ b.map Prod.fst := by
    intro k hk
    obtain ⟨p, hp, hpk⟩ := List.mem_map.mp hk
    obtain ⟨w, hw, _⟩ := hsub p hp
    exact hpk ▸ (hmLookup_isSome_iff b p.1).mp ⟨w, hw⟩
  have hperm : (a.map Prod.fst).Perm (b.map Prod.fst) :=
    (nda.subperm hksub).perm_of_length_le (by simp [hlen])
  intro q hq
  have hqk : q.1 ∈ a.map Prod.fst := hperm.mem_iff.mpr (List.mem_map_of_mem Prod.fst hq)
  obtain ⟨v, hv⟩ := (hmLookup_isSome_iff a q.1).mpr hqk
  have hva : (q.1, v) ∈ a := hmLookup_mem hv
  obtain ⟨w, hw, hew⟩ := hsub (q.1, v) hva
  have hwq : hmLookup b q.1 = some q.2 := by
    have := @hmLookup_of_mem_nodup b q.1 q.2 (by cases q; exact hq) ndb
    exact this
  rw [hwq] at hw
  cases hw
  refine ⟨v, hv, ?_⟩
  rw [← ihsym (q.1, v) hva q hq]
  exact hew

theorem bool_eq_of_iff {a b : Bool} (h : a = true ↔ b = true) : a = b := by
  cases a <;> cases b <;> simp_all

/-- `__eq__` is symmetric on well-formed values. -/
theorem malEq_symm_aux : ∀ (n : Nat) (a b : Expr), sizeOf a ≤ n →
    wfv a = true → wfv b = true → malEq a b = malEq b a := by
  intro n
  induction n with
  | zero =>
    intro a b hs
    cases a <;> simp at hs
  | succ n ih =>
    intro a b hs ha hb
    have listSym : ∀ (xs ys : List Expr), sizeOf xs ≤ n →
        wfList xs = true → wfList ys = true → malEqList xs ys = malEqList ys xs := by
      intro xs
      induction xs with
      | nil =>
        intro ys _ _ _
        cases ys <;> simp [malEqList]
      | cons x xs ihl =>
        intro ys hsz hx hy
        cases ys with
        | nil => simp [malEqList]
        | cons y ys =>
          rw [wfList, Bool.and_eq_true] at hx hy
          rw [malEqList, malEqList]
          have hx1 : sizeOf x < sizeOf (x :: xs) := by
            simp only [List.cons.sizeOf_spec]
            omega
          have hx2 : sizeOf xs < sizeOf (x :: xs) := by
            simp only [List.cons.sizeOf_spec]
            omega
          have h1 : malEq x y = malEq y x := ih x y (by omega) hx.1 hy.1
          have h2 : malEqList xs ys = malEqList ys xs := ihl ys (by omega) hx.2 hy.2
          rw [h1, h2]
    cases a with
    | list xs =>
      have hal : wfList xs = true := by simpa [wfv] using ha
      have hsz : sizeOf xs ≤ n := by simp at hs; omega
      cases b <;> simp only [malEq]
      case list ys => exact listSym xs ys hsz hal (by simpa [wfv] using hb)
      case vec ys => exact listSym xs ys hsz hal (by simpa [wfv] using hb)
    | vec xs =>
      have hal : wfList xs = true := by simpa [wfv] using ha
      have hsz : sizeOf xs ≤ n := by simp at hs; omega
      cases b <;> simp only [malEq]
      case list ys => exact listSym xs ys hsz hal (by simpa [wfv] using hb)
      case vec ys => exact listSym xs ys hsz hal (by simpa [wfv] using hb)
    | hashmap kvs =>
      have ha' : (kvs.map Prod.fst).Nodup ∧ wfKVs kvs = true := by
        simpa [wfv] using ha
      cases b <;> simp only [malEq]
      case hashmap kvs' =>
        have hb' : (kvs'.map Prod.fst).Nodup ∧ wfKVs kvs' = true := by
          simpa [wfv] using hb
        have hsym : ∀ p ∈ kvs, ∀ q ∈ kvs', malEq p.2 q.2 = malEq q.2 p.2 := by
          intro p hp q hq
          refine ih p.2 q.2 ?_ (wfKVs_forall ha'.2 p hp) (wfKVs_forall hb'.2 q hq)
          have h1 : sizeOf p < sizeOf kvs := List.sizeOf_lt_of_mem hp
          have h2 : sizeOf p.2 < sizeOf p := by
            cases p
            simp only [Prod.mk.sizeOf_spec]
            omega
          simp at hs
          omega
        apply bool_eq_of_iff
        rw [Bool.and_eq_true, Bool.and_eq_true]
        constructor
        · rintro ⟨hl, hsub⟩
          have hlen : kvs.length = kvs'.length := by simpa using hl
          exact ⟨by simp [hlen], hmSub_symm_of ha'.1 hb'.1 hlen hsym hsub⟩
        · rintro ⟨hl, hsub⟩
          have hlen : kvs'.length = kvs.length := by simpa using hl
          refine ⟨by simp [hlen], ?_⟩
          exact hmSub_symm_of hb'.1 ha'.1 hlen (fun q hq p hp => (hsym p hp q hq).symm) hsub
    | int x =>
      cases b <;> simp only [malEq]
      case int y => exact beq_comm' x y
    | str x =>
      cases b <;> simp only [malEq]
      case str y => exact beq_comm' x y
    | kw x =>
      cases b <;> simp only [malEq]
      case kw y => exact beq_comm' x y
    | sym x =>
      cases b <;> simp only [malEq]
      case sym y => exact beq_comm' x y
    | bool x =>
      cases b <;> simp only [malEq]
      case bool y => exact beq_comm' x y
    | nil => cases b <;> simp only [malEq]
    | fnComp m nm => cases b <;> simp only [malEq]
    | fnRaw m a p e => cases b <;> simp only [malEq]

theorem malEq_symm (a b : Expr) (ha : wfv a = true) (hb : wfv b = true) :
    malEq a b = malEq b a :=
  malEq_symm_aux (sizeOf a) a b (Nat.le_refl _) ha hb

/-- Pairwise characterization of Python list `==`. -/
theorem malEqList_iff_pairwise (xs ys : List Expr) :
    malEqList xs ys = true ↔
      xs.length = ys.length ∧ ∀ p ∈ xs.zip ys, malEq p.1 p.2 = true := by
  induction xs generalizing ys with
  | nil =>
    cases ys <;> simp [malEqList]
  | cons x xs ih =>
    cases ys with
    | nil => simp [malEqList]
    | cons y ys =>
      rw [malEqList, Bool.and_eq_true, ih]
      constructor
      · rintro ⟨h1, h2, h3⟩
        refine ⟨by simpa using h2, ?_⟩
        intro p hp
        rcases List.mem_cons.mp hp with rfl | hp
        · exact h1
        · exact h3 p hp
      · rintro ⟨h1, h2⟩
        exact ⟨h2 (x, y) (List.mem_cons_self _ _), by simpa using h1,
          fun p hp => h2 p (List.mem_cons_of_mem _ hp)⟩

/-- C7: the `=` operation and the values' own equality between a List and
a Vector hold exactly when the element sequences are pairwise equal,
despite the distinct type identity, and this cross-type equality is
symmetric (on well-formed values, i.e. all hash-map keys unique, as for
every value the interpreter can construct). -/
theorem C7_list_vector_cross_equality (xs ys : List Expr)
    (hx : ∀ x ∈ xs, wfv x = true) (hy : ∀ y ∈ ys, wfv y = true) :
    (coreEqual (.list xs) (.vec ys) = .bool (malEqList xs ys)) ∧
    (coreEqual (.vec ys) (.list xs) = .bool (malEqList ys xs)) ∧
    (malEq (.list xs) (.vec ys) = true ↔
      xs.length = ys.length ∧ ∀ p ∈ xs.zip ys, malEq p.1 p.2 = true) ∧
    (malEq (.list xs) (.vec ys) = malEq (.vec ys) (.list xs)) := by
  have hwl : wfv (.list xs) = true := by
    rw [wfv]
    induction xs with
    | nil => rfl
    | cons a as iha =>
      rw [wfList, Bool.and_eq_true]
      exact ⟨hx a (List.mem_cons_self _ _),
        iha (fun x hxx => hx x (List.mem_cons_of_mem _ hxx))⟩
  have hwv : wfv (.vec ys) = true := by
    rw [wfv]
    induction ys with
    | nil => rfl
    | cons a as iha =>
      rw [wfList, Bool.and_eq_true]
      exact ⟨hy a (List.mem_cons_self _ _),
        iha (fun y hyy => hy y (List.mem_cons_of_mem _ hyy))⟩
  refine ⟨rfl, rfl, ?_, ?_⟩
  · rw [show malEq (.list xs) (.vec ys) = malEqList xs ys from rfl]
    exact malEqList_iff_pairwise xs ys
  · exact malEq_symm (.list xs) (.vec ys) hwl hwv

/-- Witness for `C7_list_vector_cross_equality`: `(= (list 1 2) [1 2])`
is true and symmetric. -/
theorem C7_list_vector_cross_equality_witness :
    ((∀ x ∈ ([.int 1, .int 2] : List Expr), wfv x = true) ∧
     (∀ y ∈ ([.int 1, .int 2] : List Expr), wfv y = true)) ∧
    (coreEqual (.list [.int 1, .int 2]) (.vec [.int 1, .int 2]) =
      .bool (malEqList [.int 1, .int 2] [.int 1, .int 2])) ∧
    (malEq (.list [.int 1, .int 2]) (.vec [.int 1, .int 2]) =
      malEq (.vec [.int 1, .int 2]) (.list [.int 1, .int 2])) := by
  have h := C7_list_vector_cross_equality [.int 1, .int 2] [.int 1, .int 2]
    (by intro x hx; fin_cases hx <;> rfl) (by intro y hy; fin_cases hy <;> rfl)
  exact ⟨⟨by intro x hx; fin_cases hx <;> rfl, by intro y hy; fin_cases hy <;> rfl⟩,
    h.1, h.2.2.2⟩

/-- Witness for `C5_env_binding`: parameters `(n acc)` with arguments
`(1 2 3)` bind positionally (surplus ignored); parameters `(n & more)`
with arguments `(1 2 3)` bind `more` to `(2 3)`. -/
theorem C5_env_binding_witness :
    ("&" ∉ ["n", "acc"] ∧ (["n", "acc"] : List String).Nodup) ∧
    ((["n", "acc"] : List String).length ≤ ([.int 1, .int 2, .int 3] : List Expr).length →
      ∃ data, envBindLoop ([ "n", "acc"].map .sym) [.int 1, .int 2, .int 3] [] = .ok data ∧
        ∀ i (hi : i < (["n", "acc"] : List String).length)
          (hie : i < ([.int 1, .int 2, .int 3] : List Expr).length),
          dataLookup data ((["n", "acc"] : List String).get ⟨i, hi⟩) =
            some (([.int 1, .int 2, .int 3] : List Expr).get ⟨i, hie⟩)) := by
  refine ⟨⟨by decide, by decide⟩, ?_⟩
  exact (C5_env_binding ["n", "acc"] [.int 1, .int 2, .int 3] (by decide) (by decide)).1

/-! ## The evaluator (`lispy/stepA_mal.py` `EVAL` and helpers)

`EVAL` is the trampolined evaluator: a `while True:` loop over the current
form and environment, where tail positions rewrite the pair and `continue`
and only non-tail sub-evaluations recurse into the host stack.  The model
makes both host resources explicit:

* `fuel` bounds the total number of evaluator steps: each function of the
  block decrements the shared fuel once at entry (`Err.fuel` is the model
  artifact standing for non-termination);
* `stack` bounds the depth of *nested* `EVAL` invocations, exactly the
  Python recursion depth contributed by `EVAL` frames: a nested call runs
  at `stack - 1`, while a loop `continue` keeps `stack` unchanged
  (`Err.stack` stands for host stack exhaustion, which in Python is a
  `RecursionError`, not a `MalException`).

Two behaviours of the absent `rep.py` module are modelled from the spec
(its callers `interpreter.py` and `tests/test_limit.py` use them, and
`stepA_mal.py` is the variant without the limit machinery):
`Modelled from the spec:` (1) "Before processing each iteration, the
evaluator checks the attached execution limit (if any); exceeding it
aborts with a ExecutionLimit error", placed at the top of the loop as in
`Lispy.eval` of the Scheme variant (`src/lispy.py` lines 266-269); and
(2) that error "is not catchable by `try*`": the `try*` handler
re-raises `Err.malLimit` instead of binding it.  Everything else is a
line-by-line translation of `stepA_mal.py`. -/

/-- The `if` test in `EVAL`: `isinstance(condition, MalNil) or
(isinstance(condition, MalBoolean) and condition.native() is False)`. -/
def nilOrFalse : Expr → Bool
  | .nil => true
  | .bool false => true
  | _ => false

/-- `ast_native[len(ast_native) - 1]` given the list split as head plus
tail (for a one-element `(do)`, the head itself). -/
def lastD : Expr → List Expr → Expr
  | d, [] => d
  | _, x :: xs => lastD x xs

/-- `quote`'s argument normalization: a Vector argument becomes a List. -/
def quoteArg : Expr → Expr
  | .vec xs => .list xs
  | other => other

/-- `MalFunction.make_macro()` (the in-place flag set; the model flags the
value being bound and returned -- aliasing with other references to the
same function object is not representable in a value model and no claim
depends on it). -/
def makeMacro : Expr → Expr
  | .fnComp _ n => .fnComp true n
  | .fnRaw _ a p e => .fnRaw true a p e
  | other => other

/-- `isinstance(x, MalFunction)`. -/
def isFunction : Expr → Bool
  | .fnComp _ _ => true
  | .fnRaw _ _ _ _ => true
  | _ => false

/-- `MalFunction.is_macro()` (`False` for non-functions). -/
def isMacroFlag : Expr → Bool
  | .fnComp m _ => m
  | .fnRaw m _ _ _ => m
  | _ => false

/-- The lookup key `is_macro_call` derives from the head:
`env.get(ast.native()[0].native())` stringifies the *native* of the head,
so a Symbol/String/Keyword head keys by its text, an Int by its decimal
rendering, a Boolean by Python's `"True"`/`"False"`, nil by `"None"`.
Composite and function natives stringify to `repr`-style text (memory
addresses) that can never equal an environment key, modelled as `none`. -/
def headNativeKey : Expr → Option String
  | .sym s => some s
  | .str s => some s
  | .kw s => some s
  | .int n => some (intStr n)
  | .bool b => some (if b then "True" else "False")
  | .nil => some "None"
  | _ => none

/-- `stepA_mal.is_macro_call(ast, env)`: the head of a non-empty
List *or Vector* (`ast.native()[0]` works for both) resolves in `env` to
a `MalFunction` whose macro flag is set; every failure mode
(`TypeError`, `AttributeError`, `IndexError`, `KeyError`,
`MalUnknownSymbolException`) yields `False`. -/
def isMacroCall (st : Store) (env : Nat) (ast : Expr) : Bool :=
  match ast with
  | .list (h :: _) | .vec (h :: _) =>
    match headNativeKey h with
    | some k =>
      match envGet st env k with
      | some f => isFunction f && isMacroFlag f
      | none => false
    | none => false
  | _ => false

theorem Expr.one_le_sizeOf (e : Expr) : 1 ≤ sizeOf e := by
  cases e <;> simp <;> omega

/-- `is_pair(ast.native()[0])` and the `splice-unquote` head test of
`quasiquote`, combined. -/
def isSpliceHead (h : Expr) : Bool :=
  match h with
  | .list (h0 :: _) | .vec (h0 :: _) => malEq h0 (.sym "splice-unquote")
  | _ => false

/-- `ast.native()[0].native()[1]` of the splice case (`IndexError` when
the inner form has no argument). -/
def spliceArg (h : Expr) : Except Err Expr :=
  match h with
  | .list (_ :: x :: _) | .vec (_ :: x :: _) => .ok x
  | _ => .error (.host "IndexError")

/-- The `catch*`-symbol test of `try*`:
`isinstance(x, MalSymbol) and str(x) == "catch*"`. -/
def isCatchSym : Expr → Bool
  | .sym s0 => s0 == "catch*"
  | _ => false

mutual

/-- `stepA_mal.quasiquote(ast)`: non-pairs are wrapped in `(quote ast)`;
`(unquote e)` returns `e`; a head shaped `(splice-unquote e)` produces
`(concat e (quasiquote rest))`; otherwise
`(cons (quasiquote head) (quasiquote rest))`.  The `[1]` accesses on
too-short forms raise Python `IndexError`. -/
def quasiquote : Expr → Except Err Expr
  | .list (h :: t) => quasiquotePair h t
  | .vec (h :: t) => quasiquotePair h t
  | other => .ok (.list [.sym "quote", other])
termination_by ast => sizeOf ast
decreasing_by
  all_goals simp_wf

def quasiquotePair (h : Expr) (t : List Expr) : Except Err Expr :=
  if malEq h (.sym "unquote") then
    match t with
    | x :: _ => .ok x
    | [] => .error (.host "IndexError")
  else if isSpliceHead h then
    match spliceArg h with
    | .error e => .error e
    | .ok x =>
      match quasiquote (.list t) with
      | .ok r => .ok (.list [.sym "concat", x, r])
      | .error e => .error e
  else
    match quasiquote h with
    | .error e => .error e
    | .ok q1 =>
      match quasiquote (.list t) with
      | .error e => .error e
      | .ok q2 => .ok (.list [.sym "cons", q1, q2])
termination_by 1 + sizeOf h + sizeOf t
decreasing_by
  all_goals simp_wf
  all_goals (have hq := Expr.one_le_sizeOf h; omega)

end

/-- Result of one evaluation: the value or the raised error, together
with the store (Python environments mutated before a raise stay
mutated). -/
abbrev EvalRes := Except Err Expr × Store

mutual

/-- `stepA_mal.EVAL(ast, env)` (see the section comment for the two
spec-modelled execution-limit behaviours and for the `fuel`/`stack`
convention; `stack = s + 1` runs nested evaluations at `s` and tail
continuations at `s + 1`). -/
def EVAL (fuel stack : Nat) (ast : Expr) (env : Nat) (st : Store) : EvalRes :=
  match fuel, stack with
  | 0, _ => (.error .fuel, st)
  | _ + 1, 0 => (.error .stack, st)
  | fuel + 1, s + 1 =>
      match checkLimit st with
      | .error e => (.error e, st)
      | .ok st =>
        match macroexpand fuel s ast env st with
        | (.error e, st) => (.error e, st)
        | (.ok ast, st) =>
          match ast with
          | .list [] => (.ok (.list []), st)
          | .list (h :: rest) =>
            let fs := readableStr h
            if fs = "macroexpand" then
              match rest.get? 0 with
              | none => (.error (.host "IndexError"), st)
              | some a1 => macroexpand fuel s a1 env st
            else if fs = "def!" then
              match rest.get? 0, rest.get? 1 with
              | some a1, some a2 =>
                match EVAL fuel s a2 env st with
                | (.error e, st) => (.error e, st)
                | (.ok v, st) => (.ok v, envSet st env (readableStr a1) v)
              | _, _ => (.error (.host "IndexError"), st)
            else if fs = "defmacro!" then
              match rest.get? 0, rest.get? 1 with
              | some a1, some a2 =>
                match EVAL fuel s a2 env st with
                | (.error e, st) => (.error e, st)
                | (.ok v, st) =>
                  if isFunction v then
                    (.ok (makeMacro v), envSet st env (readableStr a1) (makeMacro v))
                  else (.error (invalidArg v "not a function"), st)
              | _, _ => (.error (.host "IndexError"), st)
            else if fs = "let*" then
              -- `len(ast_native) != 3`
              if rest.length ≠ 2 then (.error (synErr "let* must be length 3"), st)
              else
                match rest.get? 0, rest.get? 1 with
                | some bindings, some body =>
                  -- `let_env = Env(env)` is created before the shape checks
                  let letEnv := st.frames.length
                  let st := { st with frames := st.frames ++ [⟨[], some env⟩] }
                  match bindings with
                  | .list bl | .vec bl =>
                    if bl.length % 2 ≠ 0 then
                      (.error (invalidArg bindings "must be an even length"), st)
                    else
                      match evalLetBinds fuel s bl letEnv st with
                      | (.error e, st) => (.error e, st)
                      | (.ok _, st) => EVAL fuel (s + 1) body letEnv st
                  | _ => (.error (invalidArg bindings "not a list or vector"), st)
                | _, _ => (.error (.host "IndexError"), st)
            else if fs = "do" then
              -- evaluate `ast_native[1:-1]`, then loop on the last form
              match evalSeq fuel s rest.dropLast env st with
              | (.error e, st) => (.error e, st)
              | (.ok _, st) => EVAL fuel (s + 1) (lastD h rest) env st
            else if fs = "if" then
              match rest.get? 0 with
              | none => (.error (.host "IndexError"), st)
              | some tExpr =>
                match EVAL fuel s tExpr env st with
                | (.error e, st) => (.error e, st)
                | (.ok c, st) =>
                  if nilOrFalse c then
                    -- `len(ast_native) >= 4`
                    if rest.length ≥ 3 then
                      match rest.get? 2 with
                      | some aExpr => EVAL fuel (s + 1) aExpr env st
                      | none => (.error (.host "IndexError"), st)
                    else (.ok .nil, st)
                  else
                    match rest.get? 1 with
                    | some cExpr => EVAL fuel (s + 1) cExpr env st
                    | none => (.error (.host "IndexError"), st)
            else if fs = "fn*" then
              -- `raw_ast = ast_native[2]` is read before `ast_native[1]`
              match rest.get? 1 with
              | none => (.error (.host "IndexError"), st)
              | some rawAst =>
                match rest.get? 0 with
                | none => (.error (.host "IndexError"), st)
                | some rawParams => (.ok (.fnRaw false rawAst rawParams env), st)
            else if fs = "quote" then
              match rest.get? 0 with
              | none => (.error (.host "IndexError"), st)
              | some a1 => (.ok (quoteArg a1), st)
            else if fs = "quasiquote" then
              match rest.get? 0 with
              | none => (.error (.host "IndexError"), st)
              | some a1 =>
                match quasiquote a1 with
                | .error e => (.error e, st)
                | .ok qq => EVAL fuel (s + 1) qq env st
            else if fs = "try*" then
              match rest.get? 0 with
              | none => (.error (.host "IndexError"), st)
              | some prot =>
                match EVAL fuel s prot env st with
                | (.ok v, st) => (.ok v, st)
                | (.error e, st) =>
                  match e with
                  | .mal payload =>
                    -- `len(ast_native) < 3` re-raises
                    if rest.length < 2 then (.error (.mal payload), st)
                    else
                      match rest.get? 1 with
                      | none => (.error (.mal payload), st)
                      | some catchBlock =>
                        match catchBlock with
                        | .list cb =>
                          match cb.get? 0 with
                          | none => (.error (.host "IndexError"), st)
                          | some c0 =>
                            if isCatchSym c0 then
                              if cb.length ≠ 3 then
                                (.error (invalidArg catchBlock "must be length 3"), st)
                              else
                                match cb.get? 1 with
                                | none => (.error (.host "IndexError"), st)
                                | some esym =>
                                  match esym with
                                  | .sym _ =>
                                    let newEnv := st.frames.length
                                    let st := { st with frames := st.frames ++ [⟨[], some env⟩] }
                                    let st := envSet st newEnv (readableStr esym) payload
                                    match cb.get? 2 with
                                    | none => (.error (.host "IndexError"), st)
                                    | some cbody => EVAL fuel (s + 1) cbody newEnv st
                                  | _ => (.error (invalidArg esym "not a symbol"), st)
                            else (.error (invalidArg c0 "must be catch* symbol"), st)
                        | _ => (.error (invalidArg catchBlock "not a list"), st)
                  | other => (.error other, st)
            else
              -- function application
              match evalAst fuel s (.list (h :: rest)) env st with
              | (.error e, st) => (.error e, st)
              | (.ok evaled, st) =>
                match evaled with
                | .list (f :: args) =>
                  match f with
                  | .fnRaw _ fast fparams fenv =>
                    -- the TCO step: rewrite (ast, env) and continue
                    match paramsToBinds fparams with
                    | .error e => (.error e, st)
                    | .ok binds =>
                      match envNew st (some fenv) binds args with
                      | .error e => (.error e, st)
                      | .ok (st, newEnv) => EVAL fuel (s + 1) fast newEnv st
                  | .fnComp _ name => (callCompiled name args, st)
                  | _ => (.error (invalidArg f "not a function"), st)
                | _ => (.error (.host "unreachable: eval_ast of a list is a list"), st)
          | notList => evalAst fuel s notList env st
termination_by structural fuel

/-- `stepA_mal.eval_ast(ast, env)` (the fuel is a model artifact; like
every function of this block it steps the shared fuel once at entry). -/
def evalAst (fuel stack : Nat) (ast : Expr) (env : Nat) (st : Store) : EvalRes :=
  match fuel with
  | 0 => (.error .fuel, st)
  | fuel + 1 =>
    match ast with
    | .sym s =>
      match envGet st env s with
      | some v => (.ok v, st)
      | none => (.error (unknownSym s), st)
    | .list xs =>
      match evalSeq fuel stack xs env st with
      | (.error e, st) => (.error e, st)
      | (.ok vs, st) => (.ok (.list vs), st)
    | .vec xs =>
      match evalSeq fuel stack xs env st with
      | (.error e, st) => (.error e, st)
      | (.ok vs, st) => (.ok (.vec vs), st)
    | .hashmap kvs =>
      match evalKVs fuel stack kvs env st with
      | (.error e, st) => (.error e, st)
      | (.ok vs, st) => (.ok (.hashmap vs), st)
    | other => (.ok other, st)
termination_by structural fuel

/-- `[EVAL(x, env) for x in xs]`, threading the store left-to-right. -/
def evalSeq (fuel stack : Nat) (xs : List Expr) (env : Nat) (st : Store) :
    Except Err (List Expr) × Store :=
  match fuel with
  | 0 => (.error .fuel, st)
  | fuel + 1 =>
    match xs with
    | [] => (.ok [], st)
    | x :: rest =>
      match EVAL fuel stack x env st with
      | (.error e, st) => (.error e, st)
      | (.ok v, st) =>
        match evalSeq fuel stack rest env st with
        | (.error e, st) => (.error e, st)
        | (.ok vs, st) => (.ok (v :: vs), st)
termination_by structural fuel

/-- Hash-map literal evaluation: keys kept, values evaluated in order. -/
def evalKVs (fuel stack : Nat) (kvs : List (HKey × Expr)) (env : Nat) (st : Store) :
    Except Err (List (HKey × Expr)) × Store :=
  match fuel with
  | 0 => (.error .fuel, st)
  | fuel + 1 =>
    match kvs with
    | [] => (.ok [], st)
    | (k, v) :: rest =>
      match EVAL fuel stack v env st with
      | (.error e, st) => (.error e, st)
      | (.ok w, st) =>
        match evalKVs fuel stack rest env st with
        | (.error e, st) => (.error e, st)
        | (.ok ws, st) => (.ok ((k, w) :: ws), st)
termination_by structural fuel

/-- The sequential `let*` binding loop: each pair `sym expr` evaluates
`expr` in the (growing) `let*` frame and sets the binding there; a
non-symbol name raises `MalInvalidArgumentException` (the even-length
precondition is checked by the caller, so the odd tail is
unreachable). -/
def evalLetBinds (fuel stack : Nat) (bl : List Expr) (env : Nat) (st : Store) :
    Except Err Unit × Store :=
  match fuel with
  | 0 => (.error .fuel, st)
  | fuel + 1 =>
    match bl with
    | [] => (.ok (), st)
    | b :: v :: rest =>
      match b with
      | .sym _ =>
        match EVAL fuel stack v env st with
        | (.error e, st) => (.error e, st)
        | (.ok val, st) => evalLetBinds fuel stack rest env (envSet st env (readableStr b) val)
      | _ => (.error (invalidArg b "not a symbol"), st)
    | [_] => (.error (.host "IndexError"), st)
termination_by structural fuel

/-- `stepA_mal.macroexpand(ast, env)`: while the form is a macro call,
re-resolve the macro function and replace the form with
`macro_func.call(ast.native()[1:])` (which, for an `fn*`-produced macro,
evaluates the macro body in a fresh frame -- a nested `EVAL`). -/
def macroexpand (fuel stack : Nat) (ast : Expr) (env : Nat) (st : Store) : EvalRes :=
  match fuel with
  | 0 => (.error .fuel, st)
  | fuel + 1 =>
    if isMacroCall st env ast then
      match ast with
      | .list (h :: args) =>
        match headNativeKey h with
        | none => (.error (.host "unreachable"), st)
        | some k =>
          match envGet st env k with
          | none => (.error (.host "unreachable"), st)
          | some f =>
            if isFunction f then
              match fnCall fuel stack f args st with
              | (.error e, st) => (.error e, st)
              | (.ok newAst, st) => macroexpand fuel stack newAst env st
            else (.error (invalidArg f "not a function"), st)
      | _ => (.error (invalidArg ast "not a list"), st)
    else (.ok ast, st)
termination_by structural fuel

/-- `MalFunction.call(args)`: compiled functions dispatch into the host
table; an `fn*` closure builds `Env(outer=its env, binds=params,
exprs=args)` and runs a nested `EVAL` of its body. -/
def fnCall (fuel stack : Nat) (f : Expr) (args : List Expr) (st : Store) : EvalRes :=
  match fuel with
  | 0 => (.error .fuel, st)
  | fuel + 1 =>
    match f with
    | .fnComp _ name => (callCompiled name args, st)
    | .fnRaw _ fast fparams fenv =>
      match paramsToBinds fparams with
      | .error e => (.error e, st)
      | .ok binds =>
        match envNew st (some fenv) binds args with
        | .error e => (.error e, st)
        | .ok (st, newEnv) => EVAL fuel stack fast newEnv st
    | _ => (.error (invalidArg f "not a function"), st)
termination_by structural fuel

end

/-! ## Unfolding lemmas for the evaluator

Small equations, proved once, that let later developments unfold single
evaluator steps under symbolic fuel. -/

theorem envGetD_congr : ∀ (f : Nat) (st st' : Store), st.frames = st'.frames →
    ∀ eid key, envGetD f st eid key = envGetD f st' eid key := by
  intro f
  induction f with
  | zero => intro st st' h eid key; rfl
  | succ f ih =>
    intro st st' h eid key
    simp only [envGetD, h, ih st st' h]

theorem envGet_congr (st st' : Store) (h : st.frames = st'.frames) (eid : Nat)
    (key : String) : envGet st eid key = envGet st' eid key :=
  envGetD_congr _ st st' h eid key

theorem envGetD_fuel : ∀ (f f' : Nat) (st : Store) (eid : Nat) (key : String),
    eid < f → eid < f' → envGetD f st eid key = envGetD f' st eid key := by
  intro f
  induction f with
  | zero => intro f' st eid key h; omega
  | succ f ih =>
    intro f' st eid key h h'
    match f', h' with
    | f' + 1, _ =>
      simp only [envGetD]
      cases hfr : st.frames.get? eid with
      | none => rfl
      | some fr =>
        simp only []
        cases hdl : dataLookup fr.data key with
        | some v => rfl
        | none =>
          simp only []
          cases hout : fr.outer with
          | none => rfl
          | some o =>
            simp only []
            by_cases ho : o < eid
            · simp only [if_pos ho]
              exact ih f' st o key (by omega) (by omega)
            · simp only [if_neg ho]

theorem envGetD_append : ∀ (f : Nat) (st : Store) (fr : Frame) (eid : Nat) (key : String),
    eid < st.frames.length →
    envGetD f { st with frames := st.frames ++ [fr] } eid key = envGetD f st eid key := by
  intro f
  induction f with
  | zero => intro st fr eid key _; rfl
  | succ f ih =>
    intro st fr eid key h
    simp only [envGetD, List.get?_append h]
    cases hfr : st.frames.get? eid with
    | none => rfl
    | some fr' =>
      simp only []
      cases hdl : dataLookup fr'.data key with
      | some v => rfl
      | none =>
        simp only []
        cases hout : fr'.outer with
        | none => rfl
        | some o =>
          simp only []
          by_cases ho : o < eid
          · simp only [if_pos ho]
            exact ih st fr o key (by omega)
          · simp only [if_neg ho]

/-- `envGet` on an existing frame is unchanged by appending a frame. -/
theorem envGet_append (st : Store) (fr : Frame) (eid : Nat) (key : String)
    (h : eid < st.frames.length) :
    envGet { st with frames := st.frames ++ [fr] } eid key = envGet st eid key :=
  envGetD_append _ st fr eid key h

/-- `envGet` on a freshly appended frame: look in its data, then defer to
its outer frame in the old store. -/
theorem envGet_push (st : Store) (data : List (String × Expr)) (outer : Nat)
    (key : String) (ho : outer < st.frames.length) :
    envGet { st with frames := st.frames ++ [⟨data, some outer⟩] } st.frames.length key =
      match dataLookup data key with
      | some v => some v
      | none => envGet st outer key := by
  rw [envGet]
  rw [envGetD]
  rw [List.get?_concat_length]
  cases hdl : dataLookup data key with
  | some v => simp [hdl]
  | none =>
    simp only [hdl, if_pos ho]
    rw [envGetD_fuel st.frames.length (outer + 1) _ outer key (by omega) (by omega)]
    exact envGetD_append _ st _ outer key ho

theorem checkLimit_none {st : Store} (h : st.limit = none) : checkLimit st = .ok st := by
  simp [checkLimit, h]

theorem checkLimit_hit {st : Store} {l : Nat} (h : st.limit = some l)
    (ht : l ≤ st.ticks) : checkLimit st = .error limitErr := by
  simp [checkLimit, h, ht]

theorem checkLimit_tick {st : Store} {l : Nat} (h : st.limit = some l)
    (ht : st.ticks < l) : checkLimit st = .ok { st with ticks := st.ticks + 1 } := by
  simp only [checkLimit, h]
  rw [if_neg (by omega)]

/-- `macroexpand` returns a non-macro-call form unchanged. -/
theorem macroexpand_not (fuel s : Nat) (ast : Expr) (env : Nat) (st : Store)
    (h : isMacroCall st env ast = false) :
    macroexpand (fuel + 1) s ast env st = (.ok ast, st) := by
  simp only [macroexpand, h, Bool.false_eq_true, if_false]

/-- Once the deadline has passed, any `EVAL` entry aborts immediately
with the ExecutionLimit error, before doing anything else. -/
theorem EVAL_limit (f s : Nat) (ast : Expr) (e : Nat) (st : Store) {l : Nat}
    (hlim : st.limit = some l) (ht : l ≤ st.ticks) :
    EVAL (f + 1) (s + 1) ast e st = (.error limitErr, st) := by
  rw [EVAL]
  rw [checkLimit_hit hlim ht]

/-- Evaluating a symbol: an environment lookup. -/
theorem EVAL_sym (f s : Nat) (name : String) (e : Nat) (st : Store)
    (hlim : st.limit = none) :
    EVAL (f + 2) (s + 1) (.sym name) e st =
      ((match envGet st e name with
        | some v => .ok v
        | none => .error (unknownSym name)), st) := by
  rw [EVAL]
  rw [checkLimit_none hlim]
  simp only []
  rw [macroexpand_not f s (.sym name) e st (by simp [isMacroCall])]
  simp only [evalAst]
  cases envGet st e name <;> rfl

/-- Evaluating an integer literal: itself. -/
theorem EVAL_int (f s : Nat) (n : Int) (e : Nat) (st : Store)
    (hlim : st.limit = none) :
    EVAL (f + 2) (s + 1) (.int n) e st = (.ok (.int n), st) := by
  rw [EVAL]
  rw [checkLimit_none hlim]
  simp only []
  rw [macroexpand_not f s (.int n) e st (by simp [isMacroCall])]
  simp only [evalAst]

/-- One step of `if` with an alternate branch: the test is evaluated
first (as a nested call, at `s`); nil or boolean-false selects the
alternate, anything else the consequent, both in tail position (loop
continuation, at `s + 1`). -/
theorem EVAL_if4 (f s : Nat) (t c a : Expr) (e : Nat) (st : Store)
    (hlim : st.limit = none)
    (hmc : isMacroCall st e (.list [.sym "if", t, c, a]) = false) :
    EVAL (f + 2) (s + 1) (.list [.sym "if", t, c, a]) e st =
      (match EVAL (f + 1) s t e st with
       | (.error err, st1) => (.error err, st1)
       | (.ok cond, st1) =>
         if nilOrFalse cond then EVAL (f + 1) (s + 1) a e st1
         else EVAL (f + 1) (s + 1) c e st1) := by
  rw [EVAL]
  rw [checkLimit_none hlim]
  simp only []
  rw [macroexpand_not f s _ e st hmc]
  simp only [readableStr_sym]
  simp only [List.get?, String.reduceEq, reduceIte]
  rcases hE : EVAL (f + 1) s t e st with ⟨res, st1⟩
  cases res with
  | error err => rfl
  | ok cond =>
    by_cases hc : nilOrFalse cond
    · simp only [hc, if_true]
      simp
    · simp only [hc, Bool.false_eq_true, if_false]

/-- One step of `if` without an alternate: a nil-or-false test yields
nil. -/
theorem EVAL_if3 (f s : Nat) (t c : Expr) (e : Nat) (st : Store)
    (hlim : st.limit = none)
    (hmc : isMacroCall st e (.list [.sym "if", t, c]) = false) :
    EVAL (f + 2) (s + 1) (.list [.sym "if", t, c]) e st =
      (match EVAL (f + 1) s t e st with
       | (.error err, st1) => (.error err, st1)
       | (.ok cond, st1) =>
         if nilOrFalse cond then (.ok .nil, st1)
         else EVAL (f + 1) (s + 1) c e st1) := by
  rw [EVAL]
  rw [checkLimit_none hlim]
  simp only []
  rw [macroexpand_not f s _ e st hmc]
  simp only [readableStr_sym]
  simp only [List.get?, String.reduceEq, reduceIte]
  rcases hE : EVAL (f + 1) s t e st with ⟨res, st1⟩
  cases res with
  | error err => rfl
  | ok cond =>
    by_cases hc : nilOrFalse cond
    · simp only [hc, if_true]
      simp
    · simp only [hc, Bool.false_eq_true, if_false]

/-- One step of `def!`: evaluate the value (nested), bind it in the
current frame under the name's `str()`, and return it. -/
theorem EVAL_defbang (f s : Nat) (nm v : Expr) (e : Nat) (st : Store)
    (hlim : st.limit = none)
    (hmc : isMacroCall st e (.list [.sym "def!", nm, v]) = false) :
    EVAL (f + 2) (s + 1) (.list [.sym "def!", nm, v]) e st =
      (match EVAL (f + 1) s v e st with
       | (.error err, st1) => (.error err, st1)
       | (.ok w, st1) => (.ok w, envSet st1 e (readableStr nm) w)) := by
  rw [EVAL]
  rw [checkLimit_none hlim]
  simp only []
  rw [macroexpand_not f s _ e st hmc]
  simp only [readableStr_sym]
  simp only [List.get?, String.reduceEq, reduceIte]

/-- One step of `fn*`: construct the closure, capturing the current
environment, the raw parameter expression and the body, macro flag
unset. -/
theorem EVAL_fnstar (f s : Nat) (params body : Expr) (e : Nat) (st : Store)
    (hlim : st.limit = none)
    (hmc : isMacroCall st e (.list [.sym "fn*", params, body]) = false) :
    EVAL (f + 2) (s + 1) (.list [.sym "fn*", params, body]) e st =
      (.ok (.fnRaw false body params e), st) := by
  rw [EVAL]
  rw [checkLimit_none hlim]
  simp only []
  rw [macroexpand_not f s _ e st hmc]
  simp only [readableStr_sym]
  simp only [List.get?, String.reduceEq, reduceIte]

/-- The special-form head symbols of the `EVAL` dispatch. -/
def specialNames : List String :=
  ["macroexpand", "def!", "defmacro!", "let*", "do", "if", "fn*", "quote",
   "quasiquote", "try*"]

/-- One step of function application (a head that is no special form):
evaluate head and arguments left-to-right via `eval_ast`; a Closure
rewrites the current form and environment and continues the loop in tail
position (the TCO step, at `s + 1`); a compiled function is called
directly. -/
theorem EVAL_app (f s : Nat) (h : Expr) (rest : List Expr) (e : Nat) (st : Store)
    (hlim : st.limit = none) (hmc : isMacroCall st e (.list (h :: rest)) = false)
    (hns : readableStr h ∉ specialNames) :
    EVAL (f + 2) (s + 1) (.list (h :: rest)) e st =
      (match evalAst (f + 1) s (.list (h :: rest)) e st with
       | (.error err, st1) => (.error err, st1)
       | (.ok evaled, st1) =>
         match evaled with
         | .list (fv :: args) =>
           (match fv with
            | .fnRaw _ fast fparams fenv =>
              (match paramsToBinds fparams with
               | .error err => (.error err, st1)
               | .ok binds =>
                 match envNew st1 (some fenv) binds args with
                 | .error err => (.error err, st1)
                 | .ok (st2, newEnv) => EVAL (f + 1) (s + 1) fast newEnv st2)
            | .fnComp _ name => (callCompiled name args, st1)
            | other => (.error (invalidArg other "not a function"), st1))
         | _ => (.error (.host "unreachable: eval_ast of a list is a list"), st1)) := by
  simp only [specialNames, List.mem_cons, List.mem_singleton, not_or] at hns
  obtain ⟨h1, h2, h3, h4, h5, h6, h7, h8, h9, h10, -⟩ := hns
  rw [EVAL]
  rw [checkLimit_none hlim]
  simp only []
  rw [macroexpand_not f s _ e st hmc]
  simp only [if_neg h1, if_neg h2, if_neg h3, if_neg h4, if_neg h5, if_neg h6,
    if_neg h7, if_neg h8, if_neg h9, if_neg h10]
  rcases hA : evalAst (f + 1) s (.list (h :: rest)) e st with ⟨resA, st1⟩
  cases resA with
  | error err => rfl
  | ok evaled =>
    cases evaled <;> try rfl
    case list l =>
      cases l with
      | nil => rfl
      | cons fv args => cases fv <;> rfl

/-- `evalSeq` on the empty list. -/
theorem evalSeq_nil (f s e : Nat) (st : Store) :
    evalSeq (f + 1) s [] e st = (.ok [], st) := by
  simp only [evalSeq]

/-- `evalSeq` steps through a successful head evaluation. -/
theorem evalSeq_cons_ok (f s : Nat) (x : Expr) (xs : List Expr) (e : Nat)
    (st st1 : Store) (v : Expr)
    (hx : EVAL f s x e st = (.ok v, st1)) :
    evalSeq (f + 1) s (x :: xs) e st =
      (match evalSeq f s xs e st1 with
       | (.error err, st2) => (.error err, st2)
       | (.ok vs, st2) => (.ok (v :: vs), st2)) := by
  simp only [evalSeq, hx]

/-- `evalSeq` propagates a failing head evaluation. -/
theorem evalSeq_cons_err (f s : Nat) (x : Expr) (xs : List Expr) (e : Nat)
    (st st1 : Store) (err : Err)
    (hx : EVAL f s x e st = (.error err, st1)) :
    evalSeq (f + 1) s (x :: xs) e st = (.error err, st1) := by
  simp only [evalSeq, hx]

/-- `eval_ast` of a list defers to the element evaluation. -/
theorem evalAst_list (f s : Nat) (xs : List Expr) (e : Nat) (st : Store) :
    evalAst (f + 1) s (.list xs) e st =
      (match evalSeq f s xs e st with
       | (.error err, st1) => (.error err, st1)
       | (.ok vs, st1) => (.ok (.list vs), st1)) := by
  simp only [evalAst]

/-- One step of `try*` with a well-formed `(catch* sym body)` clause: a
caught `MalException` binds its payload in a fresh child frame and
continues with the catch body in tail position; the spec-modelled
ExecutionLimit error -- like host-level errors and the model's fuel and
stack markers -- propagates unchanged. -/
theorem EVAL_try (f s : Nat) (prot cbody : Expr) (es : String) (e : Nat) (st : Store)
    (hlim : st.limit = none)
    (hmc : isMacroCall st e
      (.list [.sym "try*", prot, .list [.sym "catch*", .sym es, cbody]]) = false) :
    EVAL (f + 2) (s + 1)
        (.list [.sym "try*", prot, .list [.sym "catch*", .sym es, cbody]]) e st =
      (match EVAL (f + 1) s prot e st with
       | (.ok v, st1) => (.ok v, st1)
       | (.error (.mal p), st1) =>
         EVAL (f + 1) (s + 1) cbody st1.frames.length
           (envSet { st1 with frames := st1.frames ++ [⟨[], some e⟩] }
             st1.frames.length es p)
       | (.error other, st1) => (.error other, st1)) := by
  rw [EVAL]
  rw [checkLimit_none hlim]
  simp only []
  rw [macroexpand_not f s _ e st hmc]
  simp only [readableStr_sym]
  simp only [List.get?, String.reduceEq, reduceIte]
  rcases hE : EVAL (f + 1) s prot e st with ⟨res, st1⟩
  cases res with
  | ok v => rfl
  | error err =>
    cases err with
    | mal p => simp [isCatchSym, readableStr_sym]
    | malLimit p => rfl
    | host k => rfl
    | fuel => rfl
    | stack => rfl

/-! ## Claim C6: `if` semantics -/

/-- C6: for every evaluation of an `(if test conseq alt?)` form, the test
is evaluated first (as a nested call, at stack budget `s`); if its value
is nil or the boolean false the alternate branch is evaluated in tail
position (loop continuation, at stack budget `s + 1`), and nil is
returned when no alternate is present; every other test value -- in
particular `0`, the empty string and the empty list -- selects the
consequent in tail position.  (The hypotheses pin the execution limit off
and `if` not shadowed by a macro binding, as in any environment the
interpreter constructs.) -/
theorem C6_if_semantics (f s : Nat) (t c a : Expr) (e : Nat) (st : Store)
    (hlim : st.limit = none)
    (hmc4 : isMacroCall st e (.list [.sym "if", t, c, a]) = false)
    (hmc3 : isMacroCall st e (.list [.sym "if", t, c]) = false) :
    (EVAL (f + 2) (s + 1) (.list [.sym "if", t, c, a]) e st =
      (match EVAL (f + 1) s t e st with
       | (.error err, st1) => (.error err, st1)
       | (.ok cond, st1) =>
         if nilOrFalse cond then EVAL (f + 1) (s + 1) a e st1
         else EVAL (f + 1) (s + 1) c e st1)) ∧
    (EVAL (f + 2) (s + 1) (.list [.sym "if", t, c]) e st =
      (match EVAL (f + 1) s t e st with
       | (.error err, st1) => (.error err, st1)
       | (.ok cond, st1) =>
         if nilOrFalse cond then (.ok .nil, st1)
         else EVAL (f + 1) (s + 1) c e st1)) ∧
    (∀ v : Expr, nilOrFalse v = true ↔ (v = .nil ∨ v = .bool false)) := by
  refine ⟨EVAL_if4 f s t c a e st hlim hmc4, EVAL_if3 f s t c e st hlim hmc3, ?_⟩
  intro v
  cases v with
  | bool b => cases b <;> simp [nilOrFalse]
  | _ => simp [nilOrFalse]

/-- Witness for `C6_if_semantics`: in the empty store, `(if 0 1 2)` takes
the consequent branch (0 is truthy). -/
theorem C6_if_semantics_witness :
    ((⟨[], none, 0⟩ : Store).limit = none ∧
     isMacroCall ⟨[], none, 0⟩ 0 (.list [.sym "if", .int 0, .int 1, .int 2]) = false ∧
     isMacroCall ⟨[], none, 0⟩ 0 (.list [.sym "if", .int 0, .int 1]) = false) ∧
    (EVAL 7 6 (.list [.sym "if", .int 0, .int 1, .int 2]) 0 ⟨[], none, 0⟩ =
      (match EVAL 6 5 (.int 0) 0 (⟨[], none, 0⟩ : Store) with
       | (.error err, st1) => (.error err, st1)
       | (.ok cond, st1) =>
         if nilOrFalse cond then EVAL 6 6 (.int 2) 0 st1
         else EVAL 6 6 (.int 1) 0 st1)) := by
  refine ⟨⟨rfl, rfl, rfl⟩, ?_⟩
  exact (C6_if_semantics 5 5 (.int 0) (.int 1) (.int 2) 0 ⟨[], none, 0⟩ rfl rfl rfl).1

/-! ## Claim C1: tail-call elimination

The program `(def! f (fn* (n acc) (if (= n 0) acc (f (- n 1) (+ n acc)))))`
`(f n 0)` is embedded below; the claim instantiates `n = 100000`.  The
fresh environment is modelled by `initNs`, the subset of `core.ns`
translated in this file (`core.ns` lookup is by name, so entries the
program never looks up cannot affect its evaluation).  The host-stack
budget in the main theorem is the constant `5`, independent of `n`: only
the fuel (loop iterations) grows with `n` -- that is the tail-call
invariant. -/

/-- The embedded subset of `core.ns`, as the root environment's data. -/
def initNs : List (String × Expr) :=
  [("+", .fnComp false "+"), ("-", .fnComp false "-"), ("*", .fnComp false "*"),
   ("/", .fnComp false "/"), ("=", .fnComp false "="), ("<", .fnComp false "<"),
   ("<=", .fnComp false "<="), (">", .fnComp false ">"), (">=", .fnComp false ">="),
   ("list", .fnComp false "list"), ("count", .fnComp false "count"),
   ("first", .fnComp false "first"), ("rest", .fnComp false "rest"),
   ("cons", .fnComp false "cons"), ("concat", .fnComp false "concat"),
   ("nth", .fnComp false "nth"), ("not", .fnComp false "not"),
   ("throw", .fnComp false "throw")]

/-- A fresh interpreter store: the root environment frame, an optional
execution limit, no time elapsed. -/
def initStore (lim : Option Nat) : Store := ⟨[⟨initNs, none⟩], lim, 0⟩

/-- `(fn* (n acc) ...)`'s parameter list. -/
def fParams : Expr := .list [.sym "n", .sym "acc"]

/-- `(if (= n 0) acc (f (- n 1) (+ n acc)))`, the closure body. -/
def fBody : Expr :=
  .list [.sym "if", .list [.sym "=", .sym "n", .int 0], .sym "acc",
    .list [.sym "f", .list [.sym "-", .sym "n", .int 1],
      .list [.sym "+", .sym "n", .sym "acc"]]]

/-- `(def! f (fn* (n acc) (if (= n 0) acc (f (- n 1) (+ n acc)))))`. -/
def fDefForm : Expr := .list [.sym "def!", .sym "f", .list [.sym "fn*", fParams, fBody]]

/-- The closure value `fn*` produces for `f` (captured environment: the
root frame, index 0). -/
def fClosure : Expr := .fnRaw false fBody fParams 0

/-- The root frame's data after the `def!`. -/
def gData : List (String × Expr) := initNs ++ [("f", fClosure)]

/-- `1 + 2 + ... + n`. -/
def tri : Nat → Nat
  | 0 => 0
  | n + 1 => tri n + (n + 1)

theorem tri_eq (n : Nat) : 2 * tri n = n * (n + 1) := by
  induction n with
  | zero => rfl
  | succ n ih => simp [tri]; ring_nf; ring_nf at ih; omega

/-- `interpreter.Lispy.eval` applied to a sequence of top-level forms:
each call resets the execution limit (`reset_execution_limit`, here the
elapsed ticks) and evaluates the form in the root environment; an
uncaught exception aborts the run. -/
def runForms (fuel stack : Nat) : List Expr → Store → EvalRes
  | [], st => (.ok .nil, st)
  | x :: xs, st =>
    match EVAL fuel stack x 0 { st with ticks := 0 } with
    | (.ok v, st') =>
      match xs with
      | [] => (.ok v, st')
      | _ :: _ => runForms fuel stack xs st'
    | err => err

theorem frames_pos_of_get?_zero {st : Store} {fr : Frame}
    (h : st.frames.get? 0 = some fr) : 0 < st.frames.length := by
  cases hf : st.frames with
  | nil => rw [hf] at h; simp at h
  | cons a l => simp

/-- Lookups in the root frame after `def!`. -/
theorem envGet_root (st : Store) (h0 : st.frames.get? 0 = some ⟨gData, none⟩)
    (key : String) : envGet st 0 key = dataLookup gData key := by
  rw [envGet, envGetD, h0]
  cases hdl : dataLookup (Frame.mk gData none).data key with
  | some v => simp [hdl]
  | none => simp [hdl]

/-- Symbol evaluation given a known lookup. -/
theorem EVAL_sym_ok (F s : Nat) (nm : String) (e : Nat) (st : Store) (v : Expr)
    (hF : 2 ≤ F) (hlim : st.limit = none) (hv : envGet st e nm = some v) :
    EVAL F (s + 1) (.sym nm) e st = (.ok v, st) := by
  obtain ⟨f, rfl⟩ : ∃ f, F = f + 2 := ⟨F - 2, by omega⟩
  rw [EVAL_sym f s nm e st hlim, hv]

/-- Integer evaluation at any sufficient fuel. -/
theorem EVAL_int_ok (F s : Nat) (n : Int) (e : Nat) (st : Store)
    (hF : 2 ≤ F) (hlim : st.limit = none) :
    EVAL F (s + 1) (.int n) e st = (.ok (.int n), st) := by
  obtain ⟨f, rfl⟩ : ∃ f, F = f + 2 := ⟨F - 2, by omega⟩
  exact EVAL_int f s n e st hlim

theorem isMacroCall_head_sym (st : Store) (e : Nat) (nm : String) (rest : List Expr) :
    isMacroCall st e (.list (.sym nm :: rest)) =
      (match envGet st e nm with
       | some f => isFunction f && isMacroFlag f
       | none => false) := by
  simp [isMacroCall, headNativeKey]

/-- A head symbol bound to a non-macro (or unbound) is not a macro call. -/
theorem isMacroCall_false_of (st : Store) (e : Nat) (nm : String) (rest : List Expr)
    (h : envGet st e nm = none ∨ ∃ v, envGet st e nm = some v ∧ isMacroFlag v = false) :
    isMacroCall st e (.list (.sym nm :: rest)) = false := by
  rw [isMacroCall_head_sym]
  rcases h with h | ⟨v, hv, hm⟩
  · rw [h]
  · rw [hv]
    simp only []
    rw [hm, Bool.and_false]

/-- A binary compiled-builtin application `(op x y)` with pure argument
evaluations: evaluate both arguments and call the host procedure. -/
theorem EVAL_binop (F : Nat) (op : String) (x y vx vy : Expr) (e : Nat) (st : Store)
    (hF : 7 ≤ F) (hlim : st.limit = none)
    (hop : envGet st e op = some (.fnComp false op))
    (hns : op ∉ specialNames)
    (hx : ∀ G s, 2 ≤ G → EVAL G (s + 1) x e st = (.ok vx, st))
    (hy : ∀ G s, 2 ≤ G → EVAL G (s + 1) y e st = (.ok vy, st)) :
    EVAL F 4 (.list [.sym op, x, y]) e st = (callCompiled op [vx, vy], st) := by
  obtain ⟨f, rfl⟩ : ∃ f, F = f + 7 := ⟨F - 7, by omega⟩
  have hmc : isMacroCall st e (.list [.sym op, x, y]) = false :=
    isMacroCall_false_of st e op _ (Or.inr ⟨_, hop, rfl⟩)
  have happ := EVAL_app (f + 5) 3 (.sym op) [x, y] e st hlim hmc
    (by rw [readableStr_sym]; exact hns)
  rw [show f + 7 = f + 5 + 2 from rfl, happ]
  rw [show f + 5 + 1 = f + 5 + 1 from rfl]
  rw [evalAst_list (f + 5) 3 [.sym op, x, y] e st]
  rw [evalSeq_cons_ok (f + 4) 3 (.sym op) [x, y] e st st (.fnComp false op)
    (EVAL_sym_ok (f + 4) 2 op e st _ (by omega) hlim hop)]
  rw [evalSeq_cons_ok (f + 3) 3 x [y] e st st vx (hx (f + 3) 2 (by omega))]
  rw [evalSeq_cons_ok (f + 2) 3 y [] e st st vy (hy (f + 2) 2 (by omega))]
  rw [show f + 2 = f + 1 + 1 from rfl, evalSeq_nil (f + 1) 3 e st]

/-- The preserved invariant of the `f` loop: no limit, the root frame
holds the post-`def!` globals, and the current frame chain resolves the
program's symbols. -/
def Inv (st : Store) (e : Nat) (nv acc : Int) : Prop :=
  st.limit = none ∧
  st.frames.get? 0 = some ⟨gData, none⟩ ∧
  envGet st e "n" = some (.int nv) ∧
  envGet st e "acc" = some (.int acc) ∧
  envGet st e "f" = some fClosure ∧
  envGet st e "=" = some (.fnComp false "=") ∧
  envGet st e "-" = some (.fnComp false "-") ∧
  envGet st e "+" = some (.fnComp false "+") ∧
  envGet st e "if" = none

/-- `(= n 0)` under the invariant. -/
theorem condEval (st : Store) (e : Nat) (nv acc : Int) (hInv : Inv st e nv acc)
    (F : Nat) (hF : 7 ≤ F) :
    EVAL F 4 (.list [.sym "=", .sym "n", .int 0]) e st =
      (.ok (.bool (nv == 0)), st) := by
  obtain ⟨hlim, h0, hn, hacc, hf, heq, hsub, hadd, hif⟩ := hInv
  rw [EVAL_binop F "=" (.sym "n") (.int 0) (.int nv) (.int 0) e st hF hlim heq
    (by decide)
    (fun G s hG => EVAL_sym_ok G s "n" e st _ hG hlim hn)
    (fun G s hG => EVAL_int_ok G s 0 e st hG hlim)]
  simp [callCompiled, requireArgs, coreEqual, malEq]

/-- `(- n 1)` under the invariant. -/
theorem subEval (st : Store) (e : Nat) (nv acc : Int) (hInv : Inv st e nv acc)
    (F : Nat) (hF : 7 ≤ F) :
    EVAL F 4 (.list [.sym "-", .sym "n", .int 1]) e st =
      (.ok (.int (nv - 1)), st) := by
  obtain ⟨hlim, h0, hn, hacc, hf, heq, hsub, hadd, hif⟩ := hInv
  rw [EVAL_binop F "-" (.sym "n") (.int 1) (.int nv) (.int 1) e st hF hlim hsub
    (by decide)
    (fun G s hG => EVAL_sym_ok G s "n" e st _ hG hlim hn)
    (fun G s hG => EVAL_int_ok G s 1 e st hG hlim)]
  simp [callCompiled, coreSub, numNative]

/-- `(+ n acc)` under the invariant. -/
theorem addEval (st : Store) (e : Nat) (nv acc : Int) (hInv : Inv st e nv acc)
    (F : Nat) (hF : 7 ≤ F) :
    EVAL F 4 (.list [.sym "+", .sym "n", .sym "acc"]) e st =
      (.ok (.int (nv + acc)), st) := by
  obtain ⟨hlim, h0, hn, hacc, hf, heq, hsub, hadd, hif⟩ := hInv
  rw [EVAL_binop F "+" (.sym "n") (.sym "acc") (.int nv) (.int acc) e st hF hlim hadd
    (by decide)
    (fun G s hG => EVAL_sym_ok G s "n" e st _ hG hlim hn)
    (fun G s hG => EVAL_sym_ok G s "acc" e st _ hG hlim hacc)]
  simp [callCompiled, coreAdd, numNative]

/-- Appending a call frame `{n, acc}` over the root re-establishes the
invariant. -/
theorem InvPush (st : Store) (hlim : st.limit = none)
    (h0 : st.frames.get? 0 = some ⟨gData, none⟩) (nv' acc' : Int) :
    Inv { st with frames := st.frames ++ [⟨[("n", .int nv'), ("acc", .int acc')], some 0⟩] }
      st.frames.length nv' acc' := by
  have hpos : 0 < st.frames.length := frames_pos_of_get?_zero h0
  have hpush := fun key => envGet_push st [("n", .int nv'), ("acc", .int acc')] 0 key hpos
  refine ⟨hlim, ?_, ?_, ?_, ?_, ?_, ?_, ?_, ?_⟩
  · exact (List.get?_append hpos).trans h0
  · rw [hpush "n"]; rfl
  · rw [hpush "acc"]; rfl
  · rw [hpush "f"]
    simp only [dataLookup]
    rw [envGet_root st h0 "f"]
    rfl
  · rw [hpush "="]
    simp only [dataLookup]
    rw [envGet_root st h0 "="]
    rfl
  · rw [hpush "-"]
    simp only [dataLookup]
    rw [envGet_root st h0 "-"]
    rfl
  · rw [hpush "+"]
    simp only [dataLookup]
    rw [envGet_root st h0 "+"]
    rfl
  · rw [hpush "if"]
    simp only [dataLookup]
    rw [envGet_root st h0 "if"]
    rfl

/-- `(- n 1)` as a form. -/
def subForm : Expr := .list [.sym "-", .sym "n", .int 1]

/-- `(+ n acc)` as a form. -/
def addForm : Expr := .list [.sym "+", .sym "n", .sym "acc"]

/-- The tail call `(f (- n 1) (+ n acc))`. -/
def fAppForm : Expr := .list [.sym "f", subForm, addForm]

theorem fBody_eq :
    fBody = .list [.sym "if", .list [.sym "=", .sym "n", .int 0], .sym "acc", fAppForm] :=
  rfl

theorem fClosure_eq : fClosure = .fnRaw false fBody fParams 0 := rfl

/-- Constructing the call frame `{n, acc}` of one `f` application. -/
theorem envNew_frame (st : Store) (a b : Expr) :
    envNew st (some 0) [.sym "n", .sym "acc"] [a, b] =
      .ok ({ st with frames := st.frames ++ [⟨[("n", a), ("acc", b)], some 0⟩] },
           st.frames.length) := rfl

/-- The loop of `f`: under the invariant, the body evaluates to
`acc + tri k` at host stack `5` -- a bound independent of `k`, because
every recursive application of `f` continues the evaluator loop in tail
position instead of nesting a host call. -/
theorem fLoop (k : Nat) : ∀ (acc : Int) (e : Nat) (st : Store) (F : Nat),
    Inv st e (k : Int) acc → 2 * k + 12 ≤ F →
    ∃ st', EVAL F 5 fBody e st = (.ok (.int (acc + (tri k : Int))), st') := by
  induction k with
  | zero =>
    intro acc e st F hInv hF
    obtain ⟨f, rfl⟩ : ∃ f, F = f + 12 := ⟨F - 12, by omega⟩
    obtain ⟨hlim, h0, hn, hacc, hf, heq, hsub, hadd, hif⟩ := hInv
    have hInv' : Inv st e 0 acc := ⟨hlim, h0, hn, hacc, hf, heq, hsub, hadd, hif⟩
    have hmc : isMacroCall st e fBody = false :=
      isMacroCall_false_of st e "if" _ (Or.inl hif)
    refine ⟨st, ?_⟩
    rw [fBody_eq]
    rw [show (f + 12 : Nat) = f + 10 + 2 from rfl, show (5 : Nat) = 4 + 1 from rfl]
    rw [EVAL_if4 (f + 10) 4 _ _ _ e st hlim (fBody_eq ▸ hmc)]
    rw [condEval st e 0 acc hInv' (f + 11) (by omega)]
    simp only []
    rw [show ((0 : Int) == 0) = true from by decide]
    simp only [nilOrFalse, Bool.false_eq_true, if_false]
    rw [EVAL_sym_ok (f + 11) 4 "acc" e st _ (by omega) hlim hacc]
    simp [tri]
  | succ j ih =>
    intro acc e st F hInv hF
    obtain ⟨f, rfl⟩ : ∃ f, F = f + 7 := ⟨F - 7, by omega⟩
    obtain ⟨hlim, h0, hn, hacc, hf, heq, hsub, hadd, hif⟩ := hInv
    have hInv' : Inv st e ((j : Int) + 1) acc := ⟨hlim, h0, hn, hacc, hf, heq, hsub, hadd, hif⟩
    have hmc : isMacroCall st e fBody = false :=
      isMacroCall_false_of st e "if" _ (Or.inl hif)
    rw [fBody_eq]
    rw [show (f + 7 : Nat) = f + 5 + 2 from rfl, show (5 : Nat) = 4 + 1 from rfl]
    rw [EVAL_if4 (f + 5) 4 _ _ _ e st hlim (fBody_eq ▸ hmc)]
    rw [condEval st e ((j : Int) + 1) acc hInv' (f + 6) (by omega)]
    simp only []
    rw [show (((j : Int) + 1) == 0) = false from by
      rw [beq_eq_false_iff_ne]; intro hc; omega]
    simp only [nilOrFalse, if_true]
    have hmcApp : isMacroCall st e fAppForm = false :=
      isMacroCall_false_of st e "f" _ (Or.inr ⟨fClosure, hf, rfl⟩)
    rw [show fAppForm = .list (.sym "f" :: [subForm, addForm]) from rfl]
    rw [show (f + 6 : Nat) = f + 4 + 2 from rfl]
    rw [EVAL_app (f + 4) 4 (.sym "f") [subForm, addForm] e st hlim
      (by rw [show Expr.list (.sym "f" :: [subForm, addForm]) = fAppForm from rfl]; exact hmcApp)
      (by rw [readableStr_sym]; decide)]
    rw [evalAst_list (f + 4) 4 _ e st]
    rw [evalSeq_cons_ok (f + 3) 4 (.sym "f") [subForm, addForm] e st st fClosure
      (EVAL_sym_ok (f + 3) 3 "f" e st _ (by omega) hlim hf)]
    rw [evalSeq_cons_ok (f + 2) 4 subForm [addForm] e st st (.int ((j : Int) + 1 - 1))
      (subEval st e ((j : Int) + 1) acc hInv' (f + 2) (by omega))]
    rw [evalSeq_cons_ok (f + 1) 4 addForm [] e st st (.int ((j : Int) + 1 + acc))
      (addEval st e ((j : Int) + 1) acc hInv' (f + 1) (by omega))]
    rw [show (f + 1 : Nat) = f + 0 + 1 from rfl, evalSeq_nil (f + 0) 4 e st]
    simp only []
    rw [fClosure_eq]
    simp only []
    rw [show paramsToBinds fParams = .ok [.sym "n", .sym "acc"] from rfl]
    simp only []
    rw [envNew_frame st (.int ((j : Int) + 1 - 1)) (.int ((j : Int) + 1 + acc))]
    simp only []
    have hInv2 := InvPush st hlim h0 ((j : Int) + 1 - 1) ((j : Int) + 1 + acc)
    rw [show ((j : Int) + 1 - 1) = (j : Int) from by ring] at hInv2 ⊢
    obtain ⟨st', hst'⟩ := ih ((j : Int) + 1 + acc) st.frames.length _ (f + 5) hInv2 (by omega)
    rw [show (f + 5 : Nat) = f + 4 + 1 from rfl] at hst'
    rw [hst']
    refine ⟨st', ?_⟩
    have harith : (j : Int) + 1 + acc + (tri j : Int) = acc + (tri (j + 1) : Int) := by
      rw [show tri (j + 1) = tri j + (j + 1) from rfl]
      push_cast
      ring
    rw [harith]

/-- The store right after the `def!`: the root frame extended with `f`. -/
def gStore : Store := ⟨[⟨gData, none⟩], none, 0⟩

/-- Evaluating the `def!` form in a fresh store defines `f` and returns
the closure. -/
theorem evalDefForm (F : Nat) (hF : 6 ≤ F) :
    EVAL F 5 fDefForm 0 (initStore none) = (.ok fClosure, gStore) := by
  obtain ⟨f, rfl⟩ : ∃ f, F = f + 6 := ⟨F - 6, by omega⟩
  rw [show fDefForm = .list [.sym "def!", .sym "f", .list [.sym "fn*", fParams, fBody]]
    from rfl]
  rw [show (f + 6 : Nat) = f + 4 + 2 from rfl, show (5 : Nat) = 4 + 1 from rfl]
  rw [EVAL_defbang (f + 4) 4 (.sym "f") (.list [.sym "fn*", fParams, fBody]) 0
    (initStore none) rfl (by rw [isMacroCall_head_sym]; rfl)]
  rw [show (f + 5 : Nat) = f + 3 + 2 from rfl, show (4 : Nat) = 3 + 1 from rfl]
  rw [EVAL_fnstar (f + 3) 3 fParams fBody 0 (initStore none) rfl
    (by rw [isMacroCall_head_sym]; rfl)]
  rfl

/-- Applying `(f n 0)` in any store whose root frame holds the
post-`def!` globals yields the triangular sum, at host stack `5`. -/
theorem evalCall (n : Nat) (st : Store) (F : Nat) (hF : 2 * n + 13 ≤ F)
    (hlim : st.limit = none) (h0 : st.frames.get? 0 = some ⟨gData, none⟩) :
    ∃ st', EVAL F 5 (.list [.sym "f", .int (n : Int), .int 0]) 0 st =
      (.ok (.int (tri n : Int)), st') := by
  obtain ⟨f, rfl⟩ : ∃ f, F = f + 7 := ⟨F - 7, by omega⟩
  have hf0 : envGet st 0 "f" = some fClosure := by
    rw [envGet_root st h0 "f"]; rfl
  rw [show (f + 7 : Nat) = f + 5 + 2 from rfl, show (5 : Nat) = 4 + 1 from rfl]
  rw [EVAL_app (f + 5) 4 (.sym "f") [.int (n : Int), .int 0] 0 st hlim
    (isMacroCall_false_of st 0 "f" _ (Or.inr ⟨fClosure, hf0, rfl⟩))
    (by rw [readableStr_sym]; decide)]
  rw [evalAst_list (f + 5) 4 _ 0 st]
  rw [evalSeq_cons_ok (f + 4) 4 (.sym "f") [.int (n : Int), .int 0] 0 st st fClosure
    (EVAL_sym_ok (f + 4) 3 "f" 0 st _ (by omega) hlim hf0)]
  rw [evalSeq_cons_ok (f + 3) 4 (.int (n : Int)) [.int 0] 0 st st (.int (n : Int))
    (EVAL_int_ok (f + 3) 3 (n : Int) 0 st (by omega) hlim)]
  rw [evalSeq_cons_ok (f + 2) 4 (.int 0) [] 0 st st (.int 0)
    (EVAL_int_ok (f + 2) 3 0 0 st (by omega) hlim)]
  rw [show (f + 2 : Nat) = f + 1 + 1 from rfl, evalSeq_nil (f + 1) 4 0 st]
  simp only []
  rw [fClosure_eq]
  simp only []
  rw [show paramsToBinds fParams = .ok [.sym "n", .sym "acc"] from rfl]
  simp only []
  rw [envNew_frame st (.int (n : Int)) (.int 0)]
  simp only []
  have hInv2 := InvPush st hlim h0 (n : Int) 0
  obtain ⟨st', hst'⟩ := fLoop n 0 st.frames.length _ (f + 6) hInv2 (by omega)
  rw [show (f + 6 : Nat) = f + 5 + 1 from rfl] at hst'
  rw [hst']
  rw [show (0 : Int) + (tri n : Int) = (tri n : Int) from by ring]
  exact ⟨st', rfl⟩

/-- C1: the program `(def! f (fn* (n acc) (if (= n 0) acc (f (- n 1) (+ n acc)))))`
`(f n 0)` in a fresh environment evaluates to the triangular number
`n * (n + 1) / 2` at a host-stack budget that is the constant `5`,
independent of `n` (tail-call elimination: closure application rewrites
the loop's current form and environment instead of recursing, so only
fuel, the loop-iteration count, grows with `n`); at `n = 100000` the
result is `5000050000`. -/
theorem C1_tail_call_elimination :
    (∀ n : Nat, ∃ st',
      runForms (2 * n + 22) 5
        [fDefForm, .list [.sym "f", .int (n : Int), .int 0]] (initStore none) =
        (.ok (.int (tri n : Int)), st')) ∧
    (∃ st',
      runForms 200022 5
        [fDefForm, .list [.sym "f", .int 100000, .int 0]] (initStore none) =
        (.ok (.int 5000050000), st')) := by
  have main : ∀ n : Nat, ∃ st',
      runForms (2 * n + 22) 5
        [fDefForm, .list [.sym "f", .int (n : Int), .int 0]] (initStore none) =
        (.ok (.int (tri n : Int)), st') := by
    intro n
    have h1 : EVAL (2 * n + 22) 5 fDefForm 0 { initStore none with ticks := 0 } =
        (.ok fClosure, gStore) := evalDefForm _ (by omega)
    obtain ⟨st', h2⟩ := evalCall n { gStore with ticks := 0 } (2 * n + 22)
      (by omega) rfl rfl
    refine ⟨st', ?_⟩
    rw [runForms, h1]
    simp only []
    rw [runForms, h2]
  refine ⟨main, ?_⟩
  obtain ⟨st', h⟩ := main 100000
  refine ⟨st', ?_⟩
  have htri : (tri 100000 : Int) = 5000050000 := by
    have := tri_eq 100000
    omega
  rw [show ((100000 : Nat) : Int) = (100000 : Int) from by norm_num] at h
  rw [show (2 * 100000 + 22 : Nat) = 200022 from by norm_num] at h
  rw [htri] at h
  exact h

/-! ## Claim C9: macro expansion is idempotent

`macroexpand` loops while `is_macro_call(ast, env)`; so whenever it
returns normally, its result fails that test in the store it returns --
and a second expansion of the result is the identity. -/

/-- A normal `macroexpand` result is not a macro call (the loop's exit
condition, in the returned store). -/
theorem macroexpand_exit (fuel : Nat) : ∀ (s : Nat) (ast : Expr) (env : Nat)
    (st : Store) (y : Expr) (st' : Store),
    macroexpand fuel s ast env st = (.ok y, st') → isMacroCall st' env y = false := by
  induction fuel with
  | zero =>
    intro s ast env st y st' h
    simp only [macroexpand] at h
    simp at h
  | succ f ih =>
    intro s ast env st y st' h
    by_cases hm : isMacroCall st env ast
    · cases ast <;> try (simp [isMacroCall] at hm; done)
      · rename_i l
        cases l with
        | nil => simp [isMacroCall] at hm
        | cons hd args =>
          rw [macroexpand, if_pos hm] at h
          split at h <;> try simp at h
          split at h <;> try simp at h
          split at h <;> try simp at h
          split at h <;> try simp at h
          exact ih _ _ _ _ _ _ h
      · rename_i l
        cases l with
        | nil => simp [isMacroCall] at hm
        | cons hd args =>
          simp only [macroexpand] at h
          rw [if_pos hm] at h
          simp at h
    · rw [macroexpand_not f s ast env st (by simpa using hm)] at h
      cases h
      simpa using hm

/-- C9: macro expansion is idempotent.  If `macroexpand` returns `y`,
then `y` is no longer a macro call in the resulting environment store,
and re-expanding `y` there (with any fuel left) returns `y` and the
store unchanged: `expand(expand(x)) = expand(x)`. -/
theorem C9_macroexpand_idempotent (fuel s : Nat) (ast : Expr) (env : Nat)
    (st : Store) (y : Expr) (st' : Store)
    (h : macroexpand fuel s ast env st = (.ok y, st')) :
    isMacroCall st' env y = false ∧
    ∀ fuel' s', macroexpand (fuel' + 1) s' y env st' = (.ok y, st') := by
  have hexit := macroexpand_exit fuel s ast env st y st' h
  exact ⟨hexit, fun fuel' s' => macroexpand_not fuel' s' y env st' hexit⟩

theorem C9_macroexpand_idempotent_witness :
    isMacroCall ⟨[], none, 0⟩ 0 (.list [.sym "x", .int 1]) = false ∧
    ∀ fuel' s', macroexpand (fuel' + 1) s' (.list [.sym "x", .int 1]) 0 ⟨[], none, 0⟩ =
      (.ok (.list [.sym "x", .int 1]), ⟨[], none, 0⟩) :=
  C9_macroexpand_idempotent 1 0 (.list [.sym "x", .int 1]) 0 ⟨[], none, 0⟩
    (.list [.sym "x", .int 1]) ⟨[], none, 0⟩ rfl

/-! ## Claim C3: the execution limit aborts every evaluation

Step lemmas under an active execution limit: `checkLimit` consumes one
time unit (`.ok st1` with the clock advanced) or aborts (`.error`). -/

/-- Symbol evaluation under a passing limit check. -/
theorem EVAL_sym_ck (f s : Nat) (name : String) (e : Nat) (st st1 : Store)
    (hck : checkLimit st = .ok st1) :
    EVAL (f + 2) (s + 1) (.sym name) e st =
      ((match envGet st1 e name with
        | some v => .ok v
        | none => .error (unknownSym name)), st1) := by
  rw [EVAL, hck]
  simp only []
  rw [macroexpand_not f s (.sym name) e st1 (by simp [isMacroCall])]
  simp only [evalAst]
  cases envGet st1 e name <;> rfl

/-- `def!` under a passing limit check. -/
theorem EVAL_defbang_ck (f s : Nat) (nm v : Expr) (e : Nat) (st st1 : Store)
    (hck : checkLimit st = .ok st1)
    (hmc : isMacroCall st1 e (.list [.sym "def!", nm, v]) = false) :
    EVAL (f + 2) (s + 1) (.list [.sym "def!", nm, v]) e st =
      (match EVAL (f + 1) s v e st1 with
       | (.error err, st2) => (.error err, st2)
       | (.ok w, st2) => (.ok w, envSet st2 e (readableStr nm) w)) := by
  rw [EVAL, hck]
  simp only []
  rw [macroexpand_not f s _ e st1 hmc]
  simp only [readableStr_sym]
  simp only [List.get?, String.reduceEq, reduceIte]

/-- `fn*` under a passing limit check. -/
theorem EVAL_fnstar_ck (f s : Nat) (params body : Expr) (e : Nat) (st st1 : Store)
    (hck : checkLimit st = .ok st1)
    (hmc : isMacroCall st1 e (.list [.sym "fn*", params, body]) = false) :
    EVAL (f + 2) (s + 1) (.list [.sym "fn*", params, body]) e st =
      (.ok (.fnRaw false body params e), st1) := by
  rw [EVAL, hck]
  simp only []
  rw [macroexpand_not f s _ e st1 hmc]
  simp only [readableStr_sym]
  simp only [List.get?, String.reduceEq, reduceIte]

/-- Function application under a passing limit check. -/
theorem EVAL_app_ck (f s : Nat) (h : Expr) (rest : List Expr) (e : Nat) (st st1 : Store)
    (hck : checkLimit st = .ok st1)
    (hmc : isMacroCall st1 e (.list (h :: rest)) = false)
    (hns : readableStr h ∉ specialNames) :
    EVAL (f + 2) (s + 1) (.list (h :: rest)) e st =
      (match evalAst (f + 1) s (.list (h :: rest)) e st1 with
       | (.error err, st2) => (.error err, st2)
       | (.ok evaled, st2) =>
         match evaled with
         | .list (fv :: args) =>
           (match fv with
            | .fnRaw _ fast fparams fenv =>
              (match paramsToBinds fparams with
               | .error err => (.error err, st2)
               | .ok binds =>
                 match envNew st2 (some fenv) binds args with
                 | .error err => (.error err, st2)
                 | .ok (st3, newEnv) => EVAL (f + 1) (s + 1) fast newEnv st3)
            | .fnComp _ name => (callCompiled name args, st2)
            | other => (.error (invalidArg other "not a function"), st2))
         | _ => (.error (.host "unreachable: eval_ast of a list is a list"), st2)) := by
  simp only [specialNames, List.mem_cons, List.mem_singleton, not_or] at hns
  obtain ⟨h1, h2, h3, h4, h5, h6, h7, h8, h9, h10, -⟩ := hns
  rw [EVAL, hck]
  simp only []
  rw [macroexpand_not f s _ e st1 hmc]
  simp only [if_neg h1, if_neg h2, if_neg h3, if_neg h4, if_neg h5, if_neg h6,
    if_neg h7, if_neg h8, if_neg h9, if_neg h10]
  rcases hA : evalAst (f + 1) s (.list (h :: rest)) e st1 with ⟨resA, st2⟩
  cases resA with
  | error err => rfl
  | ok evaled =>
    cases evaled <;> try rfl
    case list l =>
      cases l with
      | nil => rfl
      | cons fv args => cases fv <;> rfl

/-- `(loop)`, the body of the divergent closure. -/
def loopBody : Expr := .list [.sym "loop"]

/-- `(fn* () (loop))`. -/
def loopFn : Expr := .list [.sym "fn*", .list [], loopBody]

/-- `(def! loop (fn* () (loop)))`. -/
def loopDef : Expr := .list [.sym "def!", .sym "loop", loopFn]

/-- The closure bound to `loop`. -/
def loopClosure : Expr := .fnRaw false loopBody (.list []) 0

/-- The root frame's data after the `def!` of `loop`. -/
def lData : List (String × Expr) := initNs ++ [("loop", loopClosure)]

theorem envGet_frame0 (st : Store) (d : List (String × Expr))
    (h0 : st.frames.get? 0 = some ⟨d, none⟩) (key : String) :
    envGet st 0 key = dataLookup d key := by
  rw [envGet, envGetD, h0]
  cases hdl : dataLookup (Frame.mk d none).data key with
  | some v => simp [hdl]
  | none => simp [hdl]

/-- Advancing the clock does not change environment lookups. -/
theorem envGet_ticks (st : Store) (t : Nat) (e : Nat) (key : String) :
    envGet { st with ticks := t } e key = envGet st e key := by
  simp only [envGet]
  exact envGetD_congr (e + 1) { st with ticks := t } st rfl e key

/-- The invariant of the divergent loop: active limit `l`, the
post-`def!` root frame, `loop` resolving to its closure. -/
def LInv (st : Store) (e : Nat) (l : Nat) : Prop :=
  st.limit = some l ∧ st.frames.get? 0 = some ⟨lData, none⟩ ∧
  envGet st e "loop" = some loopClosure

/-- `(loop)` under a finite limit always aborts with the ExecutionLimit
error: each cycle advances the clock, so the deadline is reached after
finitely many iterations no matter how much fuel remains. -/
theorem loopAborts (d : Nat) : ∀ (l e : Nat) (st : Store) (F : Nat),
    LInv st e l → d = l - st.ticks → 2 * d + 10 ≤ F →
    ∃ st', EVAL F 5 loopBody e st = (.error limitErr, st') := by
  induction d using Nat.strong_induction_on with
  | _ d ih =>
    intro l e st F hInv hd hF
    obtain ⟨hlim, h0, hloop⟩ := hInv
    by_cases hdl1 : l ≤ st.ticks
    · obtain ⟨f, rfl⟩ : ∃ f, F = f + 1 := ⟨F - 1, by omega⟩
      exact ⟨st, EVAL_limit f 4 loopBody e st hlim hdl1⟩
    · push_neg at hdl1
      have hck : checkLimit st = .ok { st with ticks := st.ticks + 1 } :=
        checkLimit_tick hlim hdl1
      have hloop1 : envGet { st with ticks := st.ticks + 1 } e "loop" = some loopClosure := by
        rw [envGet_ticks]; exact hloop
      have hmc : isMacroCall { st with ticks := st.ticks + 1 } e
          (.list (.sym "loop" :: [])) = false :=
        isMacroCall_false_of _ e "loop" [] (Or.inr ⟨loopClosure, hloop1, rfl⟩)
      obtain ⟨f, rfl⟩ : ∃ f, F = f + 7 := ⟨F - 7, by omega⟩
      rw [show loopBody = .list (.sym "loop" :: []) from rfl]
      rw [show (f + 7 : Nat) = f + 5 + 2 from rfl, show (5 : Nat) = 4 + 1 from rfl]
      rw [EVAL_app_ck (f + 5) 4 (.sym "loop") [] e st _ hck hmc
        (by rw [readableStr_sym]; decide)]
      rw [evalAst_list (f + 5) 4 _ e _]
      by_cases hdl2 : l ≤ st.ticks + 1
      · have hsymE : EVAL (f + 4) 4 (.sym "loop") e { st with ticks := st.ticks + 1 } =
            (.error limitErr, { st with ticks := st.ticks + 1 }) := by
          rw [show (f + 4 : Nat) = f + 3 + 1 from rfl, show (4 : Nat) = 3 + 1 from rfl]
          exact EVAL_limit (f + 3) 3 _ e _ hlim hdl2
        rw [evalSeq_cons_err (f + 4) 4 (.sym "loop") [] e _ _ limitErr hsymE]
        simp only []
        exact ⟨_, rfl⟩
      · push_neg at hdl2
        have hck2 : checkLimit { st with ticks := st.ticks + 1 } =
            .ok { st with ticks := st.ticks + 2 } :=
          @checkLimit_tick { st with ticks := st.ticks + 1 } l hlim hdl2
        have hloop2 : envGet { st with ticks := st.ticks + 2 } e "loop" = some loopClosure := by
          rw [envGet_ticks]; exact hloop
        have hsym : EVAL (f + 4) 4 (.sym "loop") e { st with ticks := st.ticks + 1 } =
            (.ok loopClosure, { st with ticks := st.ticks + 2 }) := by
          rw [show (f + 4 : Nat) = f + 2 + 2 from rfl, show (4 : Nat) = 3 + 1 from rfl]
          rw [EVAL_sym_ck (f + 2) 3 "loop" e _ _ hck2]
          rw [hloop2]
        rw [evalSeq_cons_ok (f + 4) 4 (.sym "loop") [] e _ _ loopClosure hsym]
        rw [show (f + 4 : Nat) = f + 3 + 1 from rfl, evalSeq_nil (f + 3) 4 e _]
        simp only []
        rw [show loopClosure = .fnRaw false loopBody (.list []) 0 from rfl]
        simp only []
        rw [show paramsToBinds (.list []) = .ok ([] : List Expr) from rfl]
        simp only []
        rw [show envNew { st with ticks := st.ticks + 2 } (some 0) [] [] =
          .ok ({ st with frames := st.frames ++ [⟨[], some 0⟩], ticks := st.ticks + 2 },
            st.frames.length) from rfl]
        simp only []
        have hpos : 0 < st.frames.length := frames_pos_of_get?_zero h0
        have hlv : envGet
            { st with frames := st.frames ++ [⟨[], some 0⟩], ticks := st.ticks + 2 }
            st.frames.length "loop" = some loopClosure := by
          have hp := envGet_push { st with ticks := st.ticks + 2 } [] 0 "loop" hpos
          exact hp.trans (by
            show envGet { st with ticks := st.ticks + 2 } 0 "loop" = some loopClosure
            rw [envGet_ticks]
            rw [envGet_frame0 st lData h0 "loop"]
            rfl)
        have hInv3 : LInv
            { st with frames := st.frames ++ [⟨[], some 0⟩], ticks := st.ticks + 2 }
            st.frames.length l :=
          ⟨hlim, (List.get?_append hpos).trans h0, hlv⟩
        obtain ⟨st', h'⟩ := ih (d - 2) (by omega) l st.frames.length
          { st with frames := st.frames ++ [⟨[], some 0⟩], ticks := st.ticks + 2 }
          (f + 6) hInv3 (by simp only []; omega) (by omega)
        rw [show (f + 6 : Nat) = f + 5 + 1 from rfl] at h'
        rw [h']
        exact ⟨st', rfl⟩

/-- With at least two time units of headroom, the `def!` form completes,
consuming two iterations (its own and the nested `fn*` evaluation). -/
theorem evalLoopDef (F l : Nat) (hF : 6 ≤ F) (hl : 2 ≤ l) :
    EVAL F 5 loopDef 0 (initStore (some l)) =
      (.ok loopClosure, ⟨[⟨lData, none⟩], some l, 2⟩) := by
  obtain ⟨f, rfl⟩ : ∃ f, F = f + 6 := ⟨F - 6, by omega⟩
  have hck : checkLimit (initStore (some l)) =
      .ok { initStore (some l) with ticks := (initStore (some l)).ticks + 1 } :=
    checkLimit_tick rfl (by show 0 < l; omega)
  rw [show loopDef = .list [.sym "def!", .sym "loop", loopFn] from rfl]
  rw [show (f + 6 : Nat) = f + 4 + 2 from rfl, show (5 : Nat) = 4 + 1 from rfl]
  rw [EVAL_defbang_ck (f + 4) 4 (.sym "loop") loopFn 0 (initStore (some l)) _ hck
    (by rw [isMacroCall_head_sym]; rfl)]
  have hck2 : checkLimit { initStore (some l) with ticks := (initStore (some l)).ticks + 1 } =
      .ok { initStore (some l) with ticks := (initStore (some l)).ticks + 2 } :=
    @checkLimit_tick { initStore (some l) with ticks := (initStore (some l)).ticks + 1 } l
      rfl (by show 0 + 1 < l; omega)
  rw [show loopFn = .list [.sym "fn*", .list [], loopBody] from rfl]
  rw [show (f + 5 : Nat) = f + 3 + 2 from rfl, show (4 : Nat) = 3 + 1 from rfl]
  rw [EVAL_fnstar_ck (f + 3) 3 (.list []) loopBody 0 _ _ hck2
    (by rw [isMacroCall_head_sym]; rfl)]
  rfl

/-- C3 (execution limit, modelled from the spec: one time unit per
evaluator loop iteration).  First: whenever the deadline has passed, any
`EVAL` iteration aborts immediately with the ExecutionLimit error, before
dispatching on the form.  Second: evaluating
`(def! loop (fn* () (loop))) (loop)` under any finite limit `l`
terminates with the ExecutionLimit error whenever the fuel covers the
`2l + 22` loop iterations the deadline admits -- the program never runs
longer than its limit, no matter how much fuel is left. -/
theorem C3_execution_limit :
    (∀ (f s : Nat) (ast : Expr) (e : Nat) (st : Store) (l : Nat),
      st.limit = some l → l ≤ st.ticks →
      EVAL (f + 1) (s + 1) ast e st = (.error limitErr, st)) ∧
    (∀ l fuel, 2 * l + 22 ≤ fuel →
      ∃ st', runForms fuel 5 [loopDef, loopBody] (initStore (some l)) =
        (.error limitErr, st')) := by
  constructor
  · intro f s ast e st l hlim ht
    exact EVAL_limit f s ast e st hlim ht
  · intro l fuel hfuel
    match hl : l with
    | 0 =>
      obtain ⟨f, rfl⟩ : ∃ f, fuel = f + 1 := ⟨fuel - 1, by omega⟩
      refine ⟨{ initStore (some 0) with ticks := 0 }, ?_⟩
      rw [runForms]
      rw [show (5 : Nat) = 4 + 1 from rfl]
      rw [EVAL_limit f 4 loopDef 0 { initStore (some 0) with ticks := 0 } rfl (by omega)]
    | 1 =>
      obtain ⟨f, rfl⟩ : ∃ f, fuel = f + 6 := ⟨fuel - 6, by omega⟩
      have hck : checkLimit { initStore (some 1) with ticks := 0 } =
          .ok { initStore (some 1) with ticks := 1 } :=
        @checkLimit_tick { initStore (some 1) with ticks := 0 } 1 rfl (by decide)
      refine ⟨{ initStore (some 1) with ticks := 1 }, ?_⟩
      rw [runForms]
      rw [show loopDef = .list [.sym "def!", .sym "loop", loopFn] from rfl]
      rw [show (f + 6 : Nat) = f + 4 + 2 from rfl, show (5 : Nat) = 4 + 1 from rfl]
      rw [EVAL_defbang_ck (f + 4) 4 (.sym "loop") loopFn 0 _ _ hck
        (by rw [isMacroCall_head_sym]; rfl)]
      rw [show (f + 5 : Nat) = f + 4 + 1 from rfl, show (4 : Nat) = 3 + 1 from rfl]
      rw [EVAL_limit (f + 4) 3 loopFn 0 { initStore (some 1) with ticks := 1 } rfl
        (by decide)]
    | n + 2 =>
      have hdef : EVAL fuel 5 loopDef 0 { initStore (some (n + 2)) with ticks := 0 } =
          (.ok loopClosure, ⟨[⟨lData, none⟩], some (n + 2), 2⟩) :=
        evalLoopDef fuel (n + 2) (by omega) (by omega)
      have hInv : LInv ⟨[⟨lData, none⟩], some (n + 2), 0⟩ 0 (n + 2) :=
        ⟨rfl, rfl, by
          rw [envGet_frame0 ⟨[⟨lData, none⟩], some (n + 2), 0⟩ lData rfl "loop"]; rfl⟩
      obtain ⟨st', habort⟩ := loopAborts (n + 2) (n + 2) 0
        ⟨[⟨lData, none⟩], some (n + 2), 0⟩ fuel hInv rfl (by omega)
      have habort' : EVAL fuel 5 loopBody 0
          { (⟨[⟨lData, none⟩], some (n + 2), 2⟩ : Store) with ticks := 0 } =
          (.error limitErr, st') := habort
      refine ⟨st', ?_⟩
      rw [runForms, hdef]
      simp only []
      rw [runForms, habort']

theorem C3_execution_limit_witness :
    EVAL 1 1 (.int 42) 0 ⟨[], some 0, 0⟩ = (.error limitErr, ⟨[], some 0, 0⟩) ∧
    ∃ st', runForms 22 5 [loopDef, loopBody] (initStore (some 0)) =
      (.error limitErr, st') :=
  ⟨C3_execution_limit.1 0 0 (.int 42) 0 ⟨[], some 0, 0⟩ 0 rfl (by omega),
   C3_execution_limit.2 0 22 (by omega)⟩

/-! ## Claim C4: `try*` does not intercept the ExecutionLimit error

Modelled from the spec: `MalExecutionLimitError` (the `Err.malLimit`
kind) represents the external deadline and is not caught by `catch*`;
`try*` intercepts only the `Err.mal` kind (language-level
`MalException`s). -/

/-- `try*` under a passing limit check. -/
theorem EVAL_try_ck (f s : Nat) (prot cbody : Expr) (es : String) (e : Nat)
    (st st1 : Store) (hck : checkLimit st = .ok st1)
    (hmc : isMacroCall st1 e
      (.list [.sym "try*", prot, .list [.sym "catch*", .sym es, cbody]]) = false) :
    EVAL (f + 2) (s + 1)
        (.list [.sym "try*", prot, .list [.sym "catch*", .sym es, cbody]]) e st =
      (match EVAL (f + 1) s prot e st1 with
       | (.ok v, st2) => (.ok v, st2)
       | (.error (.mal p), st2) =>
         EVAL (f + 1) (s + 1) cbody st2.frames.length
           (envSet { st2 with frames := st2.frames ++ [⟨[], some e⟩] }
             st2.frames.length es p)
       | (.error other, st2) => (.error other, st2)) := by
  rw [EVAL, hck]
  simp only []
  rw [macroexpand_not f s _ e st1 hmc]
  simp only [readableStr_sym]
  simp only [List.get?, String.reduceEq, reduceIte]
  rcases hE : EVAL (f + 1) s prot e st1 with ⟨res, st2⟩
  cases res with
  | ok v => rfl
  | error err =>
    cases err with
    | mal p => simp [isCatchSym, readableStr_sym]
    | malLimit p => rfl
    | host k => rfl
    | fuel => rfl
    | stack => rfl

/-- C4 (modelled from the spec: ExecutionLimit is non-catchable).  First:
when the protected expression of a `try*` aborts with the ExecutionLimit
error, the whole `try*` aborts with that error -- the `catch*` clause is
not entered and no catch frame is built.  Second, the contrast: a
language-level `MalException` payload is caught, binding the payload in
a fresh frame and running the catch body.  Third and fourth, concrete
runs: with a 1-unit limit, `(try* (+ 1 2) (catch* err 7))` aborts with
the ExecutionLimit error even though the catch clause could match
anything; with room to spare, `(try* (throw 7) (catch* err err))`
evaluates to the thrown payload `7`. -/
theorem C4_limit_uncatchable :
    (∀ (f s : Nat) (prot cbody : Expr) (es : String) (e : Nat) (st st1 st2 : Store),
      checkLimit st = .ok st1 →
      isMacroCall st1 e
        (.list [.sym "try*", prot, .list [.sym "catch*", .sym es, cbody]]) = false →
      EVAL (f + 1) s prot e st1 = (.error limitErr, st2) →
      EVAL (f + 2) (s + 1)
        (.list [.sym "try*", prot, .list [.sym "catch*", .sym es, cbody]]) e st =
        (.error limitErr, st2)) ∧
    (∀ (f s : Nat) (prot cbody : Expr) (es : String) (e : Nat) (st st1 st2 : Store)
      (p : Expr),
      checkLimit st = .ok st1 →
      isMacroCall st1 e
        (.list [.sym "try*", prot, .list [.sym "catch*", .sym es, cbody]]) = false →
      EVAL (f + 1) s prot e st1 = (.error (.mal p), st2) →
      EVAL (f + 2) (s + 1)
        (.list [.sym "try*", prot, .list [.sym "catch*", .sym es, cbody]]) e st =
        EVAL (f + 1) (s + 1) cbody st2.frames.length
          (envSet { st2 with frames := st2.frames ++ [⟨[], some e⟩] }
            st2.frames.length es p)) ∧
    (∃ stL, EVAL 9 9 (.list [.sym "try*", .list [.sym "+", .int 1, .int 2],
        .list [.sym "catch*", .sym "err", .int 7]]) 0 ⟨[⟨initNs, none⟩], some 1, 0⟩ =
        (.error limitErr, stL)) ∧
    (∃ stC, EVAL 9 9 (.list [.sym "try*", .list [.sym "throw", .int 7],
        .list [.sym "catch*", .sym "err", .sym "err"]]) 0 ⟨[⟨initNs, none⟩], some 9, 0⟩ =
        (.ok (.int 7), stC)) := by
  refine ⟨?_, ?_, ⟨_, rfl⟩, ⟨_, rfl⟩⟩
  · intro f s prot cbody es e st st1 st2 hck hmc hprot
    rw [EVAL_try_ck f s prot cbody es e st st1 hck hmc, hprot]
    rfl
  · intro f s prot cbody es e st st1 st2 p hck hmc hprot
    rw [EVAL_try_ck f s prot cbody es e st st1 hck hmc, hprot]

theorem C4_limit_uncatchable_witness :
    EVAL 3 2 (.list [.sym "try*", .int 0, .list [.sym "catch*", .sym "err", .int 7]]) 0
      ⟨[], some 1, 0⟩ = (.error limitErr, ⟨[], some 1, 1⟩) :=
  C4_limit_uncatchable.1 1 1 (.int 0) (.int 7) "err" 0 ⟨[], some 1, 0⟩ ⟨[], some 1, 1⟩
    ⟨[], some 1, 1⟩ rfl rfl rfl

/-! ## The reader (`lispy/reader.py`, claim C8)

`read` builds an arpeggio `ParserPython(mExpression, comment_def=comment,
ws="\t\n\r ,")` and applies `ReadASTVisitor` to the parse tree.  The
embedding below translates the grammar rule by rule over `List Char`:

* whitespace (tab, newline, carriage return, space, comma) and `;.*`
  comments are skipped before every terminal;
* `mExpression` is arpeggio's ordered choice, tried in source order, each
  alternative backtracking to the next on failure;
* the regex terminals are translated to their deterministic greedy scans
  (none of these regexes needs backtracking); a regex match of length
  zero is a failed match in arpeggio, which is what terminates
  `ZeroOrMore` at a closing delimiter;
* the grammar has no `EOF` rule, so `read` parses a leading expression
  and ignores trailing input;
* the visitor checks (`visit_mString`'s unbalanced-string and escape
  handling, `visit_mKeyword`'s length check, `visit_mHash_map`'s pairing)
  are applied inline where arpeggio applies them to the finished tree;
  the two stagings differ only on inputs whose parse fails after a
  visitor-rejected token would have been discarded by backtracking, and
  both make `read` fail on such inputs. -/

/-- The backquote character (kept out of character-literal syntax). -/
def btick : Char := Char.ofNat 96

/-- The parser's `ws="\t\n\r ,"` class. -/
def isWsChar (c : Char) : Bool :=
  c = '\t' || c = '\n' || c = '\r' || c = ' ' || c = ','

/-- Python's regex class `\s`. -/
def isPySpace (c : Char) : Bool :=
  c = ' ' || c = '\t' || c = '\n' || c = '\r' || c = '\x0b' || c = '\x0c'

/-- `[0123456789]` (rule `mInt`). -/
def isDigitCh (c : Char) : Bool :=
  c = '0' || c = '1' || c = '2' || c = '3' || c = '4' || c = '5' || c = '6' ||
    c = '7' || c = '8' || c = '9'

/-- The symbol/keyword character class, the complement of
`[\s\[\]{}('"`,;)]` (rules `mSymbol` and `mKeyword`). -/
def isSymChar (c : Char) : Bool :=
  !isPySpace c &&
    !(c = '[' || c = ']' || c = '{' || c = '}' || c = '(' || c = ')' ||
      c = '\'' || c = '"' || c = ';' || c = ',' || c = btick)

/-- Drop a `;.*` comment: `.` stops before the newline. -/
def dropLine : List Char → List Char
  | [] => []
  | c :: rest => if c = '\n' then c :: rest else dropLine rest

theorem dropLine_length_le (cs : List Char) : (dropLine cs).length ≤ cs.length := by
  induction cs with
  | nil => simp [dropLine]
  | cons c rest ih =>
    simp only [dropLine]
    by_cases h : c = '\n'
    · simp [h]
    · simp only [h, if_false, List.length_cons]
      omega

/-- Skip inter-token whitespace and comments. -/
def skipWs (cs : List Char) : List Char :=
  match cs with
  | [] => []
  | c :: rest =>
    if isWsChar c then skipWs rest
    else if c = ';' then skipWs (dropLine rest)
    else c :: rest
termination_by cs.length
decreasing_by
  all_goals first
  | (simp only [List.length_cons]; omega)
  | (refine Nat.lt_of_le_of_lt (dropLine_length_le _) ?_
     simp only [List.length_cons]
     omega)

/-- Greedy run of decimal digits. -/
def takeDigits : List Char → (List Char × List Char)
  | [] => ([], [])
  | c :: rest =>
    if isDigitCh c then
      let (a, b) := takeDigits rest
      (c :: a, b)
    else ([], c :: rest)

/-- Greedy run of symbol characters. -/
def takeSym : List Char → (List Char × List Char)
  | [] => ([], [])
  | c :: rest =>
    if isSymChar c then
      let (a, b) := takeSym rest
      (c :: a, b)
    else ([], c :: rest)

/-- `mInt`'s regex `-?[0123456789]+`. -/
def mIntMatch (cs : List Char) : Option (List Char × List Char) :=
  match cs with
  | [] => none
  | c :: rest =>
    if c = '-' then
      match takeDigits rest with
      | ([], _) => none
      | (ds, r) => some ('-' :: ds, r)
    else
      match takeDigits (c :: rest) with
      | ([], _) => none
      | (ds, r) => some (ds, r)

/-- The scan of `mString`'s `(?:\\.|[^\\"])*` body: an escape consumes the
backslash and any following character except a newline (`.` does not
match `\n`); otherwise any character except `\` and `"`. -/
def strBody : List Char → (List Char × List Char)
  | [] => ([], [])
  | c :: rest =>
    if c = '\\' then
      match rest with
      | [] => ([], [c])
      | c2 :: rest2 =>
        if c2 = '\n' then ([], c :: rest)
        else
          let (a, b) := strBody rest2
          (c :: c2 :: a, b)
    else if c = '"' then ([], c :: rest)
    else
      let (a, b) := strBody rest
      (c :: a, b)

/-- `mString`'s regex `"(?:\\.|[^\\"])*"?`. -/
def mStringMatch (cs : List Char) : Option (List Char × List Char) :=
  match cs with
  | [] => none
  | c :: rest =>
    if c = '"' then
      let (b, r) := strBody rest
      match r with
      | [] => some ('"' :: b, [])
      | c2 :: r2 => if c2 = '"' then some (('"' :: b) ++ ['"'], r2) else some ('"' :: b, r)
    else none

/-- `visit_mString`'s escape loop on the unquoted body: `\n`, `\\`, `\"`
are decoded, any other escape is dropped, a trailing lone backslash is a
syntax error. -/
def unescape : List Char → Option (List Char)
  | [] => some []
  | c :: rest =>
    if c = '\\' then
      match rest with
      | [] => none
      | c2 :: rest2 =>
        if c2 = 'n' then (unescape rest2).map ('\n' :: ·)
        else if c2 = '\\' then (unescape rest2).map ('\\' :: ·)
        else if c2 = '"' then (unescape rest2).map ('"' :: ·)
        else unescape rest2
    else (unescape rest).map (c :: ·)

/-- `visit_mString`: require surrounding quotes (`unbalanced string`
otherwise), strip them, decode escapes. -/
def stringVisit (tok : List Char) : Option (List Char) :=
  match tok with
  | [] => none
  | c :: rest =>
    if c = '"' then
      match rest.getLast? with
      | none => none
      | some c2 => if c2 = '"' then unescape rest.dropLast else none
    else none

/-- `mKeyword`'s regex `:[^\s\[\]{}('"`,;)]*`. -/
def mKeywordMatch (cs : List Char) : Option (List Char × List Char) :=
  match cs with
  | [] => none
  | c :: rest =>
    if c = ':' then
      let (a, b) := takeSym rest
      some (':' :: a, b)
    else none

/-- `mNil`'s regex `nil(?!\?)`. -/
def mNilMatch : List Char → Option (List Char)
  | 'n' :: 'i' :: 'l' :: rest =>
    match rest with
    | [] => some []
    | c :: r => if c = '?' then none else some (c :: r)
  | _ => none

/-- `mBoolean`'s regex `(true|false)(?!\?)`. -/
def mBooleanMatch : List Char → Option (Bool × List Char)
  | 't' :: 'r' :: 'u' :: 'e' :: rest =>
    (match rest with
     | [] => some (true, [])
     | c :: r => if c = '?' then none else some (true, c :: r))
  | 'f' :: 'a' :: 'l' :: 's' :: 'e' :: rest =>
    (match rest with
     | [] => some (false, [])
     | c :: r => if c = '?' then none else some (false, c :: r))
  | _ => none

/-- `mSymbol`'s regex `[^\s\[\]{}('"`,;)]*`; an empty match is a failed
match in arpeggio. -/
def mSymbolMatch (cs : List Char) : Option (List Char × List Char) :=
  match takeSym cs with
  | ([], _) => none
  | (a, b) => some (a, b)

/-- `int(node.value)` on a `-?[0-9]+` token. -/
def digToNat (c : Char) : Nat := c.toNat - 48

/-- Decimal value of a digit run. -/
def natOfChars (ds : List Char) : Nat :=
  ds.foldl (fun a c => 10 * a + digToNat c) 0

/-- Signed decimal value of an `mInt` token. -/
def intOfChars (ds : List Char) : Int :=
  match ds with
  | [] => 0
  | c :: rest => if c = '-' then -(natOfChars rest : Int) else (natOfChars (c :: rest) : Int)

/-- `dict` insert (last write wins), for `visit_mHash_map`. -/
def hmSet : List (HKey × Expr) → HKey → Expr → List (HKey × Expr)
  | [], k, v => [(k, v)]
  | (k', v') :: rest, k, v =>
    if k' = k then (k, v) :: rest else (k', v') :: hmSet rest k v

/-- `visit_mHash_map`: even number of children, keys `MalString` or
`MalKeyword`, inserted pairwise into a fresh dict. -/
def pairKVs : List Expr → List (HKey × Expr) → Option (List (HKey × Expr))
  | [], acc => some acc
  | k :: v :: rest, acc =>
    match k with
    | .str s => pairKVs rest (hmSet acc ⟨false, s⟩ v)
    | .kw s => pairKVs rest (hmSet acc ⟨true, s⟩ v)
    | _ => none
  | [_], _ => none

/-- The ordered atom alternatives of `mExpression`: `mInt`, `mString`,
`mKeyword`, `mNil`, `mBoolean`, `mSymbol`, with their visitors. -/
def parseAtom (cs : List Char) : Option (Expr × List Char) :=
  match mIntMatch cs with
  | some (ds, r) => some (.int (intOfChars ds), r)
  | none =>
  match mStringMatch cs with
  | some (tok, r) =>
    (match stringVisit tok with
     | some body => some (.str ⟨body⟩, r)
     | none => none)
  | none =>
  match mKeywordMatch cs with
  | some (tok, r) =>
    (match tok with
     | _ :: [] => none
     | _ :: text => some (.kw ⟨text⟩, r)
     | [] => none)
  | none =>
  match mNilMatch cs with
  | some r => some (.nil, r)
  | none =>
  match mBooleanMatch cs with
  | some (b, r) => some (.bool b, r)
  | none =>
  match mSymbolMatch cs with
  | some (tok, r) => some (.sym ⟨tok⟩, r)
  | none => none

mutual

/-- `mExpression`: arpeggio's ordered choice over the alternatives in
their source order, each tried at the same position after whitespace. -/
def parseExpr (fuel : Nat) (cs0 : List Char) : Option (Expr × List Char) :=
  match fuel with
  | 0 => none
  | fuel + 1 =>
    let cs := skipWs cs0
    (match cs with
     | c :: rest =>
       if c = '\'' then
         match parseExpr fuel rest with
         | some (v, r) => some (Expr.list [.sym "quote", v], r)
         | none => none
       else none
     | [] => none).orElse fun _ =>
    (match cs with
     | c :: rest =>
       if c = btick then
         match parseExpr fuel rest with
         | some (v, r) => some (Expr.list [.sym "quasiquote", v], r)
         | none => none
       else none
     | [] => none).orElse fun _ =>
    (match cs with
     | c :: rest =>
       if c = '~' then
         match rest with
         | c2 :: rest2 =>
           if c2 = '@' then
             match parseExpr fuel rest2 with
             | some (v, r) => some (Expr.list [.sym "splice-unquote", v], r)
             | none => none
           else none
         | [] => none
       else none
     | [] => none).orElse fun _ =>
    (match cs with
     | c :: rest =>
       if c = '~' then
         match parseExpr fuel rest with
         | some (v, r) => some (Expr.list [.sym "unquote", v], r)
         | none => none
       else none
     | [] => none).orElse fun _ =>
    (match cs with
     | c :: rest =>
       if c = '@' then
         match parseExpr fuel rest with
         | some (v, r) => some (Expr.list [.sym "deref", v], r)
         | none => none
       else none
     | [] => none).orElse fun _ =>
    (match cs with
     | c :: rest =>
       if c = '^' then
         match parseExpr fuel rest with
         | some (m, r1) =>
           (match parseExpr fuel r1 with
            | some (v, r2) => some (Expr.list [.sym "with-meta", v, m], r2)
            | none => none)
         | none => none
       else none
     | [] => none).orElse fun _ =>
    (match cs with
     | c :: rest =>
       if c = '(' then
         match parseSeq fuel ')' rest with
         | some (vs, r) => some (Expr.list vs, r)
         | none => none
       else none
     | [] => none).orElse fun _ =>
    (match cs with
     | c :: rest =>
       if c = '[' then
         match parseSeq fuel ']' rest with
         | some (vs, r) => some (Expr.vec vs, r)
         | none => none
       else none
     | [] => none).orElse fun _ =>
    (match cs with
     | c :: rest =>
       if c = '{' then
         match parseSeq fuel '}' rest with
         | some (vs, r) =>
           (match pairKVs vs [] with
            | some kvs => some (Expr.hashmap kvs, r)
            | none => none)
         | none => none
       else none
     | [] => none).orElse fun _ =>
    parseAtom cs

/-- `ZeroOrMore(mExpression)` followed by the closing delimiter:
expressions are consumed while `mExpression` matches; the first failure
ends the repetition and the closer is required. -/
def parseSeq (fuel : Nat) (close : Char) (cs : List Char) :
    Option (List Expr × List Char) :=
  match fuel with
  | 0 => none
  | fuel + 1 =>
    match parseExpr fuel cs with
    | some (v, r) =>
      (match parseSeq fuel close r with
       | some (vs, r2) => some (v :: vs, r2)
       | none => none)
    | none =>
      match skipWs cs with
      | [] => none
      | c :: rest => if c = close then some ([], rest) else none

end

/-- `reader.read`: parse one `mExpression` from the input (the grammar
has no `EOF` rule, so trailing input is ignored); `none` models the
`MalSyntaxException` raised on `NoMatch` or by a visitor. -/
def read (x : String) : Option Expr :=
  match parseExpr (x.length + 1) x.data with
  | some (v, _) => some v
  | none => none

mutual

/-- The claim's literal kinds as `read` can produce them: integers,
strings, keywords (non-empty, over the keyword character class),
booleans, nil, and lists/vectors of such values.  `reader.py` has no
float rule, so `read` never produces a `MalFloat` and the claim's float
case is vacuous; symbols, hash-maps, functions and atoms are outside the
claim. -/
def litOK : Expr → Bool
  | .int _ => true
  | .str _ => true
  | .kw s => !s.isEmpty && s.data.all isSymChar
  | .bool _ => true
  | .nil => true
  | .list xs => litOKList xs
  | .vec xs => litOKList xs
  | _ => false

def litOKList : List Expr → Bool
  | [] => true
  | x :: xs => litOK x && litOKList xs

end

mutual

/-- Fuel sufficient for `parseExpr` on the printed form of a value. -/
def pFuel : Expr → Nat
  | .list xs => 1 + sFuel xs
  | .vec xs => 1 + sFuel xs
  | _ => 1

/-- Fuel sufficient for `parseSeq` on the printed forms of a sequence. -/
def sFuel : List Expr → Nat
  | [] => 1
  | x :: xs => 1 + max (pFuel x) (sFuel xs)

end

/-- The input that may legally follow a printed token: end of input,
whitespace, or a closing delimiter. -/
def delimOK : List Char → Bool
  | [] => true
  | c :: _ => isWsChar c || c = ')' || c = ']'

/-- Heads on which the ordered choice reaches the atom alternatives. -/
def atomHead (c : Char) : Bool :=
  !isWsChar c && c != ';' && c != '\'' && c != btick && c != '~' && c != '@' &&
    c != '^' && c != '(' && c != '[' && c != '{'

theorem digit_facts : ∀ c : Char, isDigitCh c = true →
    atomHead c = true ∧ c ≠ '-' ∧ isSymChar c = true := by
  intro c h
  simp only [isDigitCh, Bool.or_eq_true, decide_eq_true_eq] at h
  rcases h with ((((((((h | h) | h) | h) | h) | h) | h) | h) | h) | h <;> subst h <;>
    exact ⟨by decide, by decide, by decide⟩

theorem delim_facts : ∀ c : Char, (isWsChar c || c = ')' || c = ']') = true →
    isDigitCh c = false ∧ isSymChar c = false ∧ c ≠ '?' := by
  intro c h
  simp only [isWsChar, Bool.or_eq_true, decide_eq_true_eq] at h
  rcases h with (((((h | h) | h) | h) | h) | h) | h <;> subst h <;>
    exact ⟨by decide, by decide, by decide⟩

theorem takeDigits_stop {r : List Char} (h : delimOK r = true) :
    takeDigits r = ([], r) := by
  cases r with
  | nil => rfl
  | cons c t =>
    simp only [delimOK] at h
    rw [takeDigits, if_neg]
    rw [(delim_facts c h).1]
    simp

theorem takeSym_stop {r : List Char} (h : delimOK r = true) :
    takeSym r = ([], r) := by
  cases r with
  | nil => rfl
  | cons c t =>
    simp only [delimOK] at h
    rw [takeSym, if_neg]
    rw [(delim_facts c h).2.1]
    simp

theorem takeDigits_append {ds : List Char} (hds : ∀ c ∈ ds, isDigitCh c = true)
    {r : List Char} (hr : takeDigits r = ([], r)) :
    takeDigits (ds ++ r) = (ds, r) := by
  induction ds with
  | nil => simpa using hr
  | cons c t ih =>
    rw [List.cons_append, takeDigits, if_pos (hds c (by simp))]
    rw [ih (fun x hx => hds x (by simp [hx]))]

theorem takeSym_append {ds : List Char} (hds : ∀ c ∈ ds, isSymChar c = true)
    {r : List Char} (hr : takeSym r = ([], r)) :
    takeSym (ds ++ r) = (ds, r) := by
  induction ds with
  | nil => simpa using hr
  | cons c t ih =>
    rw [List.cons_append, takeSym, if_pos (hds c (by simp))]
    rw [ih (fun x hx => hds x (by simp [hx]))]

theorem digit_digitChar {d : Nat} (h : d < 10) : isDigitCh (digitChar d) = true := by
  interval_cases d <;> decide

theorem digToNat_digitChar {d : Nat} (h : d < 10) : digToNat (digitChar d) = d := by
  interval_cases d <;> decide

theorem natChars_digits (n : Nat) : ∀ c ∈ natChars n, isDigitCh c = true := by
  induction n using Nat.strong_induction_on with
  | _ n ih =>
    intro c hc
    rw [natChars] at hc
    by_cases h : n < 10
    · simp only [h, dif_pos] at hc
      simp at hc
      subst hc
      exact digit_digitChar h
    · simp only [h, dif_neg] at hc
      rcases List.mem_append.mp hc with h1 | h1
      · exact ih (n / 10) (Nat.div_lt_self (by omega) (by omega)) c h1
      · simp at h1
        subst h1
        exact digit_digitChar (Nat.mod_lt _ (by omega))

theorem natChars_ne_nil (n : Nat) : natChars n ≠ [] := by
  rw [natChars]
  by_cases h : n < 10
  · simp [h]
  · simp [h]

theorem natOfChars_go (n : Nat) : ∀ acc : Nat,
    List.foldl (fun a c => 10 * a + digToNat c) acc (natChars n) =
      acc * 10 ^ (natChars n).length + n := by
  induction n using Nat.strong_induction_on with
  | _ n ih =>
    intro acc
    rw [natChars]
    by_cases h : n < 10
    · simp only [h, dif_pos]
      simp [digToNat_digitChar h]
      ring
    · rw [dif_neg h]
      rw [List.foldl_append]
      rw [ih (n / 10) (Nat.div_lt_self (by omega) (by omega)) acc]
      simp only [List.foldl_cons, List.foldl_nil, List.length_append,
        List.length_singleton]
      rw [digToNat_digitChar (Nat.mod_lt _ (by omega))]
      rw [pow_succ]
      have := Nat.div_add_mod n 10
      ring_nf
      omega

theorem natOfChars_natChars (n : Nat) : natOfChars (natChars n) = n := by
  rw [natOfChars, natOfChars_go n 0]
  simp

theorem skipWs_cons (c : Char) (rest : List Char) (h1 : isWsChar c = false)
    (h2 : c ≠ ';') : skipWs (c :: rest) = c :: rest := by
  rw [skipWs]
  simp [h1, h2]

/-- On a head that no earlier alternative can start, the ordered choice
reaches the atom rules. -/
theorem parseExpr_atom (f : Nat) (c : Char) (rest : List Char) (h : atomHead c = true) :
    parseExpr (f + 1) (c :: rest) = parseAtom (c :: rest) := by
  obtain ⟨h1, h2, h3, h4, h5, h6, h7, h8, h9, h10⟩ : isWsChar c = false ∧ c ≠ ';' ∧
      c ≠ '\'' ∧ c ≠ btick ∧ c ≠ '~' ∧ c ≠ '@' ∧ c ≠ '^' ∧ c ≠ '(' ∧ c ≠ '[' ∧
      c ≠ '{' := by
    simp only [atomHead, Bool.and_eq_true, Bool.not_eq_true', bne_iff_ne, ne_eq] at h
    tauto
  rw [parseExpr]
  simp only [skipWs_cons c rest h1 h2]
  simp only [if_neg h3, if_neg h4, if_neg h5, if_neg h6, if_neg h7, if_neg h8,
    if_neg h9, if_neg h10, Option.orElse]

/-- A closing parenthesis starts no expression. -/
theorem parseExpr_close_paren (f : Nat) (rest : List Char) :
    parseExpr f (')' :: rest) = none := by
  cases f with
  | zero => rw [parseExpr]
  | succ f =>
    rw [parseExpr_atom f ')' rest (by decide)]
    rfl

/-- A closing bracket starts no expression. -/
theorem parseExpr_close_bracket (f : Nat) (rest : List Char) :
    parseExpr f (']' :: rest) = none := by
  cases f with
  | zero => rw [parseExpr]
  | succ f =>
    rw [parseExpr_atom f ']' rest (by decide)]
    rfl

/-- Leading whitespace is skipped by the expression rule. -/
theorem parseExpr_ws (F : Nat) (c : Char) (h : isWsChar c = true) (t : List Char) :
    parseExpr F (c :: t) = parseExpr F t := by
  cases F with
  | zero => rfl
  | succ f =>
    rw [parseExpr, parseExpr]
    have hskip : skipWs (c :: t) = skipWs t := by
      rw [skipWs]
      simp [h]
    rw [hskip]

/-- Leading whitespace is likewise transparent to the repetition rule. -/
theorem parseSeq_ws (F : Nat) (close c : Char) (h : isWsChar c = true)
    (t : List Char) : parseSeq F close (c :: t) = parseSeq F close t := by
  cases F with
  | zero => rfl
  | succ f =>
    rw [parseSeq, parseSeq]
    rw [parseExpr_ws f c h t]
    have hskip : skipWs (c :: t) = skipWs t := by
      rw [skipWs]
      simp [h]
    rw [hskip]

/-- A successful `ZeroOrMore`-plus-closer parse of the elements makes the
`mList` alternative succeed. -/
theorem parseExpr_list_ok (f : Nat) (rest : List Char) (vs : List Expr)
    (r : List Char) (h : parseSeq f ')' rest = some (vs, r)) :
    parseExpr (f + 1) ('(' :: rest) = some (.list vs, r) := by
  rw [parseExpr]
  simp only [skipWs_cons '(' rest (by decide) (by decide)]
  simp only [show ('(' = '\'') = False from eq_false (by decide),
    show ('(' = btick) = False from eq_false (by decide),
    show ('(' = '~') = False from eq_false (by decide),
    show ('(' = '@') = False from eq_false (by decide),
    show ('(' = '^') = False from eq_false (by decide),
    if_false, if_true, Option.orElse]
  rw [h]

theorem parseExpr_vec_ok (f : Nat) (rest : List Char) (vs : List Expr)
    (r : List Char) (h : parseSeq f ']' rest = some (vs, r)) :
    parseExpr (f + 1) ('[' :: rest) = some (.vec vs, r) := by
  rw [parseExpr]
  simp only [skipWs_cons '[' rest (by decide) (by decide)]
  simp only [show ('[' = '\'') = False from eq_false (by decide),
    show ('[' = btick) = False from eq_false (by decide),
    show ('[' = '~') = False from eq_false (by decide),
    show ('[' = '@') = False from eq_false (by decide),
    show ('[' = '^') = False from eq_false (by decide),
    show ('[' = '(') = False from eq_false (by decide),
    if_false, if_true, Option.orElse]
  rw [h]

/-- The string-body scan consumes exactly the escaped text, stopping at
the closing quote. -/
theorem strBody_esc (s : List Char) (r : List Char) :
    strBody (escChars s ++ '"' :: r) = (escChars s, '"' :: r) := by
  induction s with
  | nil =>
    simp only [escChars, List.nil_append]
    rw [strBody.eq_def]
    simp
  | cons c cs ih =>
    simp only [escChars, List.append_assoc]
    by_cases h1 : c = '\\'
    · subst h1
      rw [show escChar '\\' = ['\\', '\\'] from rfl]
      rw [List.cons_append, List.cons_append, List.nil_append]
      rw [strBody.eq_def]
      simp only [if_true]
      simp only [show ('\\' = '\n') = False from eq_false (by decide), if_false]
      rw [ih]
      rfl
    · by_cases h2 : c = '\n'
      · subst h2
        rw [show escChar '\n' = ['\\', 'n'] from rfl]
        rw [List.cons_append, List.cons_append, List.nil_append]
        rw [strBody.eq_def]
        simp only [if_true]
        simp only [show ('n' = '\n') = False from eq_false (by decide), if_false]
        rw [ih]
        rfl
      · by_cases h3 : c = '"'
        · subst h3
          rw [show escChar '"' = ['\\', '"'] from rfl]
          rw [List.cons_append, List.cons_append, List.nil_append]
          rw [strBody.eq_def]
          simp only [if_true]
          simp only [show ('"' = '\n') = False from eq_false (by decide), if_false]
          rw [ih]
          rfl
        · rw [show escChar c = if c = '\\' then ['\\', '\\'] else
            if c = '\n' then ['\\', 'n'] else
            if c = '"' then ['\\', '"'] else [c] from rfl]
          rw [if_neg h1, if_neg h2, if_neg h3]
          rw [List.cons_append, List.nil_append]
          rw [strBody.eq_def]
          simp only []
          rw [if_neg h1, if_neg h3]
          rw [ih]
          rfl

/-- Unescaping inverts the printer's escaping. -/
theorem unescape_esc (s : List Char) : unescape (escChars s) = some s := by
  induction s with
  | nil => rfl
  | cons c cs ih =>
    simp only [escChars]
    by_cases h1 : c = '\\'
    · subst h1
      rw [show escChar '\\' = ['\\', '\\'] from rfl]
      rw [List.cons_append, List.cons_append, List.nil_append]
      rw [unescape.eq_def]
      simp only [if_true]
      simp only [show ('\\' = 'n') = False from eq_false (by decide), if_false, if_pos rfl]
      rw [ih]
      rfl
    · by_cases h2 : c = '\n'
      · subst h2
        rw [show escChar '\n' = ['\\', 'n'] from rfl]
        rw [List.cons_append, List.cons_append, List.nil_append]
        rw [unescape.eq_def]
        simp only [if_true]
        rw [ih]
        rfl
      · by_cases h3 : c = '"'
        · subst h3
          rw [show escChar '"' = ['\\', '"'] from rfl]
          rw [List.cons_append, List.cons_append, List.nil_append]
          rw [unescape.eq_def]
          simp only [if_true]
          simp only [show ('"' = 'n') = False from eq_false (by decide),
            show ('"' = '\\') = False from eq_false (by decide), if_false, if_pos rfl]
          rw [ih]
          rfl
        · rw [show escChar c = if c = '\\' then ['\\', '\\'] else
            if c = '\n' then ['\\', 'n'] else
            if c = '"' then ['\\', '"'] else [c] from rfl]
          rw [if_neg h1, if_neg h2, if_neg h3]
          rw [List.cons_append, List.nil_append]
          rw [unescape.eq_def]
          simp only []
          rw [if_neg h1]
          rw [ih]
          rfl

/-- The string regex consumes the printed string including its quotes. -/
theorem mStringMatch_esc (s : List Char) (r : List Char) :
    mStringMatch ('"' :: (escChars s ++ '"' :: r)) =
      some (('"' :: escChars s) ++ ['"'], r) := by
  rw [mStringMatch]
  simp only [if_pos rfl]
  rw [strBody_esc]
  simp

/-- The string visitor recovers the original text. -/
theorem stringVisit_esc (s : List Char) :
    stringVisit (('"' :: escChars s) ++ ['"']) = some s := by
  rw [List.cons_append, stringVisit]
  simp only [if_pos rfl]
  rw [List.getLast?_concat]
  simp only [if_pos rfl]
  rw [List.dropLast_concat]
  exact unescape_esc s

/-- The keyword regex consumes the printed keyword up to a delimiter. -/
theorem mKeywordMatch_ok (sd : List Char) (r : List Char)
    (hsd : ∀ c ∈ sd, isSymChar c = true) (hr : delimOK r = true) :
    mKeywordMatch ((':' :: sd) ++ r) = some (':' :: sd, r) := by
  rw [List.cons_append, mKeywordMatch]
  simp only [if_pos rfl]
  rw [takeSym_append hsd (takeSym_stop hr)]
  simp

/-- `ZeroOrMore(mExpression)` + closer over printed elements separated by
single spaces: each element parses by the element hypothesis, the closer
ends the repetition. -/
theorem parseSeq_lit (close : Char) (hc : close = ')' ∨ close = ']') :
    ∀ (xs : List Expr),
    (∀ x ∈ xs, ∀ F rest, pFuel x ≤ F → delimOK rest = true →
        parseExpr F ((readableStr x).data ++ rest) = some (x, rest)) →
    ∀ F rest, sFuel xs ≤ F →
      parseSeq F close ((joinSpace xs).data ++ close :: rest) = some (xs, rest) := by
  intro xs
  induction xs with
  | nil =>
    intro _ F rest hF
    have hF1 : 1 ≤ F := by simpa [sFuel] using hF
    obtain ⟨f, rfl⟩ : ∃ f, F = f + 1 := ⟨F - 1, by omega⟩
    rw [show (joinSpace []).data = [] from rfl, List.nil_append]
    rw [parseSeq]
    have hfail : parseExpr f (close :: rest) = none := by
      rcases hc with h | h <;> subst h
      · exact parseExpr_close_paren f rest
      · exact parseExpr_close_bracket f rest
    rw [hfail]
    have hskip : skipWs (close :: rest) = close :: rest := by
      rcases hc with h | h <;> subst h <;> exact skipWs_cons _ rest (by decide) (by decide)
    rw [hskip]
    simp
  | cons x xs ih =>
    intro hIH F rest hF
    have hsf : 1 + max (pFuel x) (sFuel xs) ≤ F := by simpa [sFuel] using hF
    have ha : pFuel x ≤ F - 1 := by
      have h := Nat.le_max_left (pFuel x) (sFuel xs)
      omega
    have hb : sFuel xs ≤ F - 1 := by
      have h := Nat.le_max_right (pFuel x) (sFuel xs)
      omega
    obtain ⟨f, rfl⟩ : ∃ f, F = f + 1 := ⟨F - 1, by omega⟩
    simp only [Nat.add_sub_cancel] at ha hb
    cases xs with
    | nil =>
      rw [show (joinSpace [x]).data = (readableStr x).data from rfl]
      rw [parseSeq]
      rw [hIH x (by simp) f (close :: rest) ha
        (by rcases hc with h | h <;> subst h <;> rfl)]
      simp only []
      have h2 := ih (by intro y hy; exact absurd hy (List.not_mem_nil y)) f rest
        (by simpa [sFuel] using hb)
      rw [show (joinSpace []).data ++ close :: rest = close :: rest from by
        simp [joinSpace]] at h2
      rw [h2]
    | cons y ys =>
      rw [show (joinSpace (x :: y :: ys)).data =
        (readableStr x).data ++ ' ' :: (joinSpace (y :: ys)).data from by
          simp [joinSpace, String.data_append]]
      rw [List.append_assoc, List.cons_append]
      rw [parseSeq]
      rw [hIH x (by simp) f
        (' ' :: ((joinSpace (y :: ys)).data ++ close :: rest)) ha rfl]
      simp only []
      rw [parseSeq_ws f close ' ' (by decide) _]
      rw [ih (fun z hz => hIH z (by simp [hz])) f rest hb]

/-- A printed integer parses back to itself (ordered choice reaches
`mInt` first). -/
theorem parseExpr_int (f : Nat) (i : Int) (rest : List Char)
    (hrest : delimOK rest = true) :
    parseExpr (f + 1) ((intStr i).data ++ rest) = some (.int i, rest) := by
  cases i with
  | ofNat m =>
    rw [show (intStr (Int.ofNat m)).data = natChars m from rfl]
    obtain ⟨c, t, hnc⟩ : ∃ c t, natChars m = c :: t := by
      cases hx : natChars m with
      | nil => exact absurd hx (natChars_ne_nil m)
      | cons c t => exact ⟨c, t, rfl⟩
    have hcdig : isDigitCh c = true := natChars_digits m c (by rw [hnc]; simp)
    obtain ⟨hat, hnm, -⟩ := digit_facts c hcdig
    have hint : mIntMatch (natChars m ++ rest) = some (natChars m, rest) := by
      rw [hnc, List.cons_append, mIntMatch, if_neg hnm]
      rw [show c :: (t ++ rest) = natChars m ++ rest from by rw [hnc, List.cons_append]]
      rw [takeDigits_append (natChars_digits m) (takeDigits_stop hrest)]
      rw [hnc]
    have hval : intOfChars (natChars m) = Int.ofNat m := by
      rw [hnc, intOfChars]
      simp only [if_neg hnm]
      rw [← hnc, natOfChars_natChars]
      rfl
    rw [hnc, List.cons_append, parseExpr_atom f c _ hat, parseAtom]
    rw [show c :: (t ++ rest) = natChars m ++ rest from by rw [hnc, List.cons_append]]
    rw [hint]
    simp only []
    rw [hval]
  | negSucc m =>
    rw [show (intStr (Int.negSucc m)).data = '-' :: natChars (m + 1) from rfl]
    rw [List.cons_append, parseExpr_atom f '-' _ (by decide), parseAtom]
    have hint : mIntMatch ('-' :: (natChars (m + 1) ++ rest)) =
        some ('-' :: natChars (m + 1), rest) := by
      rw [mIntMatch, if_pos rfl]
      rw [takeDigits_append (natChars_digits (m + 1)) (takeDigits_stop hrest)]
      obtain ⟨c, t, hnc⟩ : ∃ c t, natChars (m + 1) = c :: t := by
        cases hx : natChars (m + 1) with
        | nil => exact absurd hx (natChars_ne_nil (m + 1))
        | cons c t => exact ⟨c, t, rfl⟩
      rw [hnc]
    rw [hint]
    simp only []
    rw [show intOfChars ('-' :: natChars (m + 1)) = -(natOfChars (natChars (m + 1)) : Int)
      from by rw [intOfChars, if_pos rfl]]
    rw [natOfChars_natChars]
    rw [show -((m + 1 : Nat) : Int) = Int.negSucc m from by
      rw [Int.negSucc_eq]; push_cast; ring]

/-- A printed string parses back to itself. -/
theorem parseExpr_str (f : Nat) (s : String) (rest : List Char) :
    parseExpr (f + 1) ((readableStr (.str s)).data ++ rest) = some (.str s, rest) := by
  rw [show (readableStr (.str s)).data ++ rest =
    '"' :: (escChars s.data ++ '"' :: rest) from by
      simp [readableStr, String.data_append]]
  rw [parseExpr_atom f '"' _ (by decide), parseAtom]
  rw [show mIntMatch ('"' :: (escChars s.data ++ '"' :: rest)) = none from rfl]
  rw [mStringMatch_esc]
  simp only []
  rw [show (('"' :: escChars s.data) ++ ['"'] : List Char) =
    '"' :: (escChars s.data ++ ['"']) from by simp]
  rw [show ('"' :: (escChars s.data ++ ['"']) : List Char) =
    ('"' :: escChars s.data) ++ ['"'] from by simp]
  rw [stringVisit_esc]

/-- A printed keyword parses back to itself. -/
theorem parseExpr_kw (f : Nat) (s : String) (rest : List Char)
    (hne : s.isEmpty = false) (hsym : s.data.all isSymChar = true)
    (hrest : delimOK rest = true) :
    parseExpr (f + 1) ((readableStr (.kw s)).data ++ rest) = some (.kw s, rest) := by
  rw [show (readableStr (.kw s)).data ++ rest = (':' :: s.data) ++ rest from by
    simp [readableStr, String.data_append]]
  rw [List.cons_append, parseExpr_atom f ':' _ (by decide), parseAtom]
  rw [show mIntMatch (':' :: (s.data ++ rest)) = none from rfl]
  rw [show mStringMatch (':' :: (s.data ++ rest)) = none from rfl]
  rw [show (':' :: (s.data ++ rest) : List Char) = (':' :: s.data) ++ rest from by simp]
  rw [mKeywordMatch_ok s.data rest (by simpa [List.all_eq_true] using hsym) hrest]
  obtain ⟨d, t, hdt⟩ : ∃ d t, s.data = d :: t := by
    cases hx : s.data with
    | nil =>
      exfalso
      have hs : s = "" := by
        cases s with
        | mk d2 => simp at hx; rw [hx]
      rw [hs] at hne
      exact absurd hne (by decide)
    | cons d t => exact ⟨d, t, rfl⟩
  rw [hdt]
  simp only []
  rw [show (Expr.kw ⟨d :: t⟩) = Expr.kw s from by rw [← hdt]]

/-- Printed `nil` parses back to `nil`. -/
theorem parseExpr_nil (f : Nat) (rest : List Char) (hrest : delimOK rest = true) :
    parseExpr (f + 1) ((readableStr .nil).data ++ rest) = some (.nil, rest) := by
  rw [show (readableStr Expr.nil).data ++ rest = 'n' :: 'i' :: 'l' :: rest from rfl]
  rw [parseExpr_atom f 'n' _ (by decide), parseAtom]
  rw [show mIntMatch ('n' :: 'i' :: 'l' :: rest) = none from rfl]
  rw [show mStringMatch ('n' :: 'i' :: 'l' :: rest) = none from rfl]
  rw [show mKeywordMatch ('n' :: 'i' :: 'l' :: rest) = none from rfl]
  cases rest with
  | nil => rfl
  | cons c t =>
    simp only [delimOK] at hrest
    rw [show mNilMatch ('n' :: 'i' :: 'l' :: c :: t) = some (c :: t) from by
      rw [mNilMatch]
      simp only [if_neg (delim_facts c hrest).2.2]]

/-- Printed booleans parse back to themselves. -/
theorem parseExpr_bool (f : Nat) (b : Bool) (rest : List Char)
    (hrest : delimOK rest = true) :
    parseExpr (f + 1) ((readableStr (.bool b)).data ++ rest) = some (.bool b, rest) := by
  cases b with
  | true =>
    rw [show (readableStr (Expr.bool true)).data ++ rest =
      't' :: 'r' :: 'u' :: 'e' :: rest from rfl]
    rw [parseExpr_atom f 't' _ (by decide), parseAtom]
    rw [show mIntMatch ('t' :: 'r' :: 'u' :: 'e' :: rest) = none from rfl]
    rw [show mStringMatch ('t' :: 'r' :: 'u' :: 'e' :: rest) = none from rfl]
    rw [show mKeywordMatch ('t' :: 'r' :: 'u' :: 'e' :: rest) = none from rfl]
    rw [show mNilMatch ('t' :: 'r' :: 'u' :: 'e' :: rest) = none from rfl]
    cases rest with
    | nil => rfl
    | cons c t =>
      simp only [delimOK] at hrest
      rw [show mBooleanMatch ('t' :: 'r' :: 'u' :: 'e' :: c :: t) =
        some (true, c :: t) from by
          rw [mBooleanMatch]
          simp only [if_neg (delim_facts c hrest).2.2]]
  | false =>
    rw [show (readableStr (Expr.bool false)).data ++ rest =
      'f' :: 'a' :: 'l' :: 's' :: 'e' :: rest from rfl]
    rw [parseExpr_atom f 'f' _ (by decide), parseAtom]
    rw [show mIntMatch ('f' :: 'a' :: 'l' :: 's' :: 'e' :: rest) = none from rfl]
    rw [show mStringMatch ('f' :: 'a' :: 'l' :: 's' :: 'e' :: rest) = none from rfl]
    rw [show mKeywordMatch ('f' :: 'a' :: 'l' :: 's' :: 'e' :: rest) = none from rfl]
    rw [show mNilMatch ('f' :: 'a' :: 'l' :: 's' :: 'e' :: rest) = none from rfl]
    cases rest with
    | nil => rfl
    | cons c t =>
      simp only [delimOK] at hrest
      rw [show mBooleanMatch ('f' :: 'a' :: 'l' :: 's' :: 'e' :: c :: t) =
        some (false, c :: t) from by
          rw [mBooleanMatch]
          simp only [if_neg (delim_facts c hrest).2.2]]

theorem litOKList_mem {xs : List Expr} (h : litOKList xs = true) :
    ∀ x ∈ xs, litOK x = true := by
  induction xs with
  | nil => intro x hx; exact absurd hx (List.not_mem_nil x)
  | cons y ys ihl =>
    intro x hx
    rw [litOKList, Bool.and_eq_true] at h
    rcases List.mem_cons.mp hx with rfl | hx2
    · exact h.1
    · exact ihl h.2 x hx2

/-- Round trip of the printed form, generalized over trailing input. -/
theorem parse_print_aux (n : Nat) : ∀ v : Expr, sizeOf v ≤ n → litOK v = true →
    ∀ F rest, pFuel v ≤ F → delimOK rest = true →
    parseExpr F ((readableStr v).data ++ rest) = some (v, rest) := by
  induction n using Nat.strong_induction_on with
  | _ n ih =>
    intro v hsz hok F rest hF hrest
    cases v with
    | int i =>
      obtain ⟨f, rfl⟩ : ∃ f, F = f + 1 :=
        ⟨F - 1, by have : pFuel (Expr.int i) = 1 := rfl; omega⟩
      exact parseExpr_int f i rest hrest
    | str s =>
      obtain ⟨f, rfl⟩ : ∃ f, F = f + 1 :=
        ⟨F - 1, by have : pFuel (Expr.str s) = 1 := rfl; omega⟩
      exact parseExpr_str f s rest
    | kw s =>
      obtain ⟨f, rfl⟩ : ∃ f, F = f + 1 :=
        ⟨F - 1, by have : pFuel (Expr.kw s) = 1 := rfl; omega⟩
      rw [litOK, Bool.and_eq_true, Bool.not_eq_true'] at hok
      exact parseExpr_kw f s rest hok.1 hok.2 hrest
    | bool b =>
      obtain ⟨f, rfl⟩ : ∃ f, F = f + 1 :=
        ⟨F - 1, by have : pFuel (Expr.bool b) = 1 := rfl; omega⟩
      exact parseExpr_bool f b rest hrest
    | nil =>
      obtain ⟨f, rfl⟩ : ∃ f, F = f + 1 :=
        ⟨F - 1, by have : pFuel Expr.nil = 1 := rfl; omega⟩
      exact parseExpr_nil f rest hrest
    | sym s => exact absurd hok (by rw [show litOK (.sym s) = false from rfl]; simp)
    | hashmap kvs => exact absurd hok (by rw [show litOK (.hashmap kvs) = false from rfl]; simp)
    | fnComp m nm => exact absurd hok (by rw [show litOK (.fnComp m nm) = false from rfl]; simp)
    | fnRaw m a p e => exact absurd hok (by rw [show litOK (.fnRaw m a p e) = false from rfl]; simp)
    | list xs =>
      have hfl : litOKList xs = true := by
        rw [show litOK (.list xs) = litOKList xs from rfl] at hok
        exact hok
      have hpf : 1 + sFuel xs ≤ F := by
        rw [show pFuel (.list xs) = 1 + sFuel xs from rfl] at hF
        exact hF
      obtain ⟨f, rfl⟩ : ∃ f, F = f + 1 := ⟨F - 1, by omega⟩
      have hn1 : 1 ≤ n := le_trans (Expr.one_le_sizeOf _) hsz
      have hIH : ∀ x ∈ xs, ∀ F' rest', pFuel x ≤ F' → delimOK rest' = true →
          parseExpr F' ((readableStr x).data ++ rest') = some (x, rest') := by
        intro x hx F' rest' hF' hrest'
        have hlt : sizeOf x < sizeOf xs := List.sizeOf_lt_of_mem hx
        have hsx : sizeOf (Expr.list xs) = 1 + sizeOf xs := by simp
        exact ih (n - 1) (by omega) x (by omega) (litOKList_mem hfl x hx) F' rest' hF' hrest'
      have hseq := parseSeq_lit ')' (Or.inl rfl) xs hIH f (rest) (by omega)
      rw [show (readableStr (.list xs)).data ++ rest =
        '(' :: ((joinSpace xs).data ++ ')' :: rest) from by
          simp [readableStr, String.data_append]]
      exact parseExpr_list_ok f _ xs rest hseq
    | vec xs =>
      have hfl : litOKList xs = true := by
        rw [show litOK (.vec xs) = litOKList xs from rfl] at hok
        exact hok
      have hpf : 1 + sFuel xs ≤ F := by
        rw [show pFuel (.vec xs) = 1 + sFuel xs from rfl] at hF
        exact hF
      obtain ⟨f, rfl⟩ : ∃ f, F = f + 1 := ⟨F - 1, by omega⟩
      have hn1 : 1 ≤ n := le_trans (Expr.one_le_sizeOf _) hsz
      have hIH : ∀ x ∈ xs, ∀ F' rest', pFuel x ≤ F' → delimOK rest' = true →
          parseExpr F' ((readableStr x).data ++ rest') = some (x, rest') := by
        intro x hx F' rest' hF' hrest'
        have hlt : sizeOf x < sizeOf xs := List.sizeOf_lt_of_mem hx
        have hsx : sizeOf (Expr.vec xs) = 1 + sizeOf xs := by simp
        exact ih (n - 1) (by omega) x (by omega) (litOKList_mem hfl x hx) F' rest' hF' hrest'
      have hseq := parseSeq_lit ']' (Or.inr rfl) xs hIH f (rest) (by omega)
      rw [show (readableStr (.vec xs)).data ++ rest =
        '[' :: ((joinSpace xs).data ++ ']' :: rest) from by
          simp [readableStr, String.data_append]]
      exact parseExpr_vec_ok f _ xs rest hseq

/-- The parse fuel is covered by the printed length. -/
theorem sFuel_le (xs : List Expr)
    (h : ∀ x ∈ xs, pFuel x ≤ (readableStr x).data.length + 1) :
    sFuel xs ≤ (joinSpace xs).data.length + 2 := by
  induction xs with
  | nil => rw [show sFuel [] = 1 from rfl]; omega
  | cons x xs ihl =>
    cases xs with
    | nil =>
      rw [show sFuel [x] = 1 + max (pFuel x) (sFuel []) from rfl]
      rw [show joinSpace [x] = readableStr x from rfl]
      have hx := h x (by simp)
      have hm : max (pFuel x) (sFuel []) ≤ (readableStr x).data.length + 1 :=
        max_le hx (by rw [show sFuel [] = 1 from rfl]; omega)
      omega
    | cons y ys =>
      rw [show sFuel (x :: y :: ys) = 1 + max (pFuel x) (sFuel (y :: ys)) from rfl]
      rw [show (joinSpace (x :: y :: ys)).data =
        (readableStr x).data ++ ' ' :: (joinSpace (y :: ys)).data from by
          simp [joinSpace, String.data_append]]
      have hx := h x (by simp)
      have hrec := ihl (fun z hz => h z (by simp [hz]))
      have hm : max (pFuel x) (sFuel (y :: ys)) ≤
          (readableStr x).data.length + (joinSpace (y :: ys)).data.length + 2 :=
        max_le (by omega) (by omega)
      simp only [List.length_append, List.length_cons]
      omega

theorem pFuel_le (n : Nat) : ∀ v : Expr, sizeOf v ≤ n →
    pFuel v ≤ (readableStr v).data.length + 1 := by
  induction n using Nat.strong_induction_on with
  | _ n ih =>
    intro v hsz
    cases v with
    | list xs =>
      have hn1 : 1 ≤ n := le_trans (Expr.one_le_sizeOf _) hsz
      have hlen : (readableStr (.list xs)).data.length =
          (joinSpace xs).data.length + 2 := by
        simp [readableStr, String.data_append]
      rw [show pFuel (.list xs) = 1 + sFuel xs from rfl, hlen]
      have hs := sFuel_le xs (fun x hx => by
        have hlt : sizeOf x < sizeOf xs := List.sizeOf_lt_of_mem hx
        have hsx : sizeOf (Expr.list xs) = 1 + sizeOf xs := by simp
        exact ih (n - 1) (by omega) x (by omega))
      omega
    | vec xs =>
      have hn1 : 1 ≤ n := le_trans (Expr.one_le_sizeOf _) hsz
      have hlen : (readableStr (.vec xs)).data.length =
          (joinSpace xs).data.length + 2 := by
        simp [readableStr, String.data_append]
      rw [show pFuel (.vec xs) = 1 + sFuel xs from rfl, hlen]
      have hs := sFuel_le xs (fun x hx => by
        have hlt : sizeOf x < sizeOf xs := List.sizeOf_lt_of_mem hx
        have hsx : sizeOf (Expr.vec xs) = 1 + sizeOf xs := by simp
        exact ih (n - 1) (by omega) x (by omega))
      omega
    | int i => rw [show pFuel (.int i) = 1 from rfl]; omega
    | str s => rw [show pFuel (.str s) = 1 from rfl]; omega
    | kw s => rw [show pFuel (.kw s) = 1 from rfl]; omega
    | sym s => rw [show pFuel (.sym s) = 1 from rfl]; omega
    | bool b => rw [show pFuel (.bool b) = 1 from rfl]; omega
    | nil => rw [show pFuel Expr.nil = 1 from rfl]; omega
    | hashmap kvs => rw [show pFuel (.hashmap kvs) = 1 from rfl]; omega
    | fnComp m nm => rw [show pFuel (.fnComp m nm) = 1 from rfl]; omega
    | fnRaw m a p e => rw [show pFuel (.fnRaw m a p e) = 1 from rfl]; omega

/-- C8: for every value of a literal kind that `read` can produce --
integer, string, keyword, boolean, nil, or a list/vector of such values
(`reader.py` has no float rule, so no float is ever produced by `read`
and that case is vacuous) -- re-reading the readable printed form
reproduces the value exactly: `read(readable_str(v)) = v`. -/
theorem C8_read_print_roundtrip (v : Expr) (hok : litOK v = true) :
    read (readableStr v) = some v := by
  have hb := pFuel_le (sizeOf v) v le_rfl
  have hlen : (readableStr v).length = (readableStr v).data.length := rfl
  have hmain := parse_print_aux (sizeOf v) v le_rfl hok ((readableStr v).length + 1) []
    (by omega) rfl
  rw [List.append_nil] at hmain
  rw [read, hmain]

theorem C8_read_print_roundtrip_witness :
    litOK (.list [.int (-7), .str "x y", .kw "k", .bool true, .nil,
      .vec [.int 0, .int 12]]) = true ∧
    read (readableStr (.list [.int (-7), .str "x y", .kw "k", .bool true, .nil,
      .vec [.int 0, .int 12]])) =
      some (.list [.int (-7), .str "x y", .kw "k", .bool true, .nil,
        .vec [.int 0, .int 12]]) :=
  ⟨rfl, C8_read_print_roundtrip _ rfl⟩

end LispyModel
